import Mathlib

/-!
Verification of the `assessment` crate's core: bounded intervals
(`Quantitative`), linear functions, the piecewise linear function engine
(`add` / `simplify` / `merge`), trapezoidal membership functions and the
qualitative-domain fuzzy-partition predicate.

Modelling conventions (shallow embedding):
* `f64` / `f32` values are embedded as `ℚ`.  Every place where the Rust code
  rounds (the `f64::round` calls in `LinearFunction::new` and in
  `PiecewiseLinearFunction::key`) is modelled explicitly by `rround`
  (round half away from zero, the semantics of Rust's `f64::round`).
* Rust's saturating float-to-integer casts (`as i32`, `as u128`) are modelled
  by explicit clamping (`sat32`, `castU128`).
* `HashMap<Quantitative<i32>, LinearFunction>` is embedded as an association
  list with `HashMap::insert` replace-on-collision semantics (`insertAL`);
  iteration order is the list order.
* The recursive `simplify` is not structurally terminating (a degenerate
  stored interval makes the Rust code recurse forever on an unchanged map),
  so it is embedded with a fuel parameter; `none` models divergence.  Each
  productive rebuild strictly decreases the piece count, so fuel
  `length + 1` is exact: the embedding returns `some` iff the Rust
  recursion terminates, and then with the same map.
-/

namespace Assessment

/-- Rust `f64::round` / `f32::round`: round half away from zero. -/
def rround (x : ℚ) : ℤ :=
  if x < 0 then -⌊-x + 1/2⌋ else ⌊x + 1/2⌋

/-- Rust saturating cast `f64 as u128` applied to an already rounded integer:
negative values clamp to `0`, values above `u128::MAX` clamp to it. -/
def castU128 (n : ℤ) : ℤ :=
  if n < 0 then 0 else min n (2 ^ 128 - 1)

/-- Rust saturating cast `f64 as i32` applied to an already rounded integer. -/
def sat32 (n : ℤ) : ℤ :=
  if n < -(2 ^ 31) then -(2 ^ 31) else if n > 2 ^ 31 - 1 then 2 ^ 31 - 1 else n

/-- `utilities::math::approx_equal_f64`: compares `round(a·10^d)` and
`round(b·10^d)` after casting both to `u128`. -/
def approx_equal_f64 (a b : ℚ) (d : ℕ) : Bool :=
  castU128 (rround (a * 10 ^ d)) == castU128 (rround (b * 10 ^ d))

/-- `utilities::math::approx_equal_f32` (identical formula at `f32`). -/
def approx_equal_f32 (a b : ℚ) (d : ℕ) : Bool :=
  castU128 (rround (a * 10 ^ d)) == castU128 (rround (b * 10 ^ d))

/-- `domain::Quantitative<T>`: an interval `[inf, sup]`. -/
structure Quantitative (α : Type) where
  inf : α
  sup : α
deriving DecidableEq, Repr

namespace Quantitative

variable {α : Type} [LinearOrder α]

/-- `Quantitative::new`: fails (`InvalidRange`) if `inf > sup`. -/
def new (inf sup : α) : Option (Quantitative α) :=
  if inf > sup then none else some ⟨inf, sup⟩

/-- `Quantitative::intersection`. -/
def intersection (s o : Quantitative α) : Option (Quantitative α) :=
  if s.inf = s.sup ∨ o.inf = o.sup then
    none
  else if s.inf ≥ o.inf then
    if s.sup ≤ o.sup then some s
    else if s.inf < o.sup then some ⟨s.inf, o.sup⟩
    else none
  else if s.sup > o.inf then
    if s.sup ≥ o.sup then some o
    else some ⟨o.inf, s.sup⟩
  else none

/-- `Quantitative::difference` (self minus other). -/
def difference (s o : Quantitative α) : List (Quantitative α) :=
  if s.inf ≥ o.inf then
    if s.inf ≥ o.sup then [s]
    else if s.sup > o.sup then [⟨o.sup, s.sup⟩]
    else []
  else if s.sup > o.inf then
    if s.sup ≥ o.sup then ⟨s.inf, o.inf⟩ :: (if s.sup > o.sup then [⟨o.sup, s.sup⟩] else [])
    else [⟨s.inf, o.inf⟩]
  else [s]

end Quantitative

/-- `fuzzy::membership::piecewise::LinearFunction`: `y = slope·x + intercept`. -/
structure LinearFunction where
  slope : ℚ
  intercept : ℚ
deriving DecidableEq, Repr

/-- Round to 5 decimals: `f64::round(x * 1e5) / 1e5`. -/
def round5 (x : ℚ) : ℚ :=
  (rround (x * 100000) : ℚ) / 100000

namespace LinearFunction

/-- `LinearFunction::new`: both coefficients rounded to 5 decimals. -/
def new (slope intercept : ℚ) : LinearFunction :=
  ⟨round5 slope, round5 intercept⟩

/-- `LinearFunction::sum` (also the `+` operators). -/
def sum (f g : LinearFunction) : LinearFunction :=
  LinearFunction.new (f.slope + g.slope) (f.intercept + g.intercept)

/-- Evaluation `slope·x + intercept` of a linear function at a point. -/
def eval (f : LinearFunction) (x : ℚ) : ℚ :=
  f.slope * x + f.intercept

end LinearFunction

/-- Key intervals of the piece map: `Quantitative<i32>`. -/
abbrev QI := Quantitative ℤ

/-- The piece map of a `PiecewiseLinearFunction`, embedded as an association
list (`HashMap` iteration order becomes the list order). -/
abbrev Pieces := List (QI × LinearFunction)

namespace PiecewiseLinearFunction

/-- `HashMap::insert`: replaces the value of an existing key. -/
def insertAL (l : Pieces) (k : QI) (v : LinearFunction) : Pieces :=
  l.filter (fun e => !(e.1 == k)) ++ [(k, v)]

/-- `HashSet::insert` on the set of keys scheduled for removal. -/
def rInsert (s : List QI) (k : QI) : List QI :=
  if s.contains k then s else k :: s

/-- `PiecewiseLinearFunction::key`: quantize bounds to 5 decimals and
saturating-cast to `i32`, then `Quantitative::new`. -/
def key (inf sup : ℚ) : Option QI :=
  Quantitative.new (sat32 (rround (inf * 100000))) (sat32 (rround (sup * 100000)))

/-- The two 3-decimal `approx_equal_f64` comparisons applied by `simplify`
to a candidate pair of linear functions. -/
def approxPair (f g : LinearFunction) : Bool :=
  approx_equal_f64 f.slope g.slope 3 && approx_equal_f64 f.intercept g.intercept 3

/-- The merge test inside `simplify` (note the defect: the second disjunct
compares `d_a`'s own bounds), plus the 3-decimal comparison of the
candidate functions. -/
def mergeCond (da : QI) (fa : LinearFunction) (db : QI) (fb : LinearFunction) : Bool :=
  (da.inf == db.sup || da.sup == da.inf) && approxPair fa fb

/-- One step of `simplify`'s inner loop over `(d_b, f_b)`, updating the
`(to_remove, to_add)` state. -/
def scanStep (da : QI) (fa : LinearFunction) (st : List QI × Pieces) (e : QI × LinearFunction) :
    List QI × Pieces :=
  if !st.1.contains da && !st.1.contains e.1 && mergeCond da fa e.1 e.2 then
    (rInsert (rInsert st.1 da) e.1,
     insertAL st.2 ⟨min da.inf e.1.inf, max da.sup e.1.sup⟩ fa)
  else st

/-- The double loop of `simplify` computing `(to_remove, to_add)`. -/
def scanOuter (pieces : Pieces) : List QI × Pieces :=
  pieces.foldl
    (fun st e => if st.1.contains e.1 then st else pieces.foldl (scanStep e.1 e.2) st)
    ([], [])

/-- Rebuild step of `simplify`: keep the pieces not scheduled for removal,
then insert all merged pieces. -/
def rebuild (pieces : Pieces) (rem : List QI) (toAdd : Pieces) : Pieces :=
  toAdd.foldl (fun acc e => insertAL acc e.1 e.2)
    (pieces.filter (fun e => !rem.contains e.1))

/-- Fuelled `PiecewiseLinearFunction::simplify`; `none` models the infinite
recursion of the Rust code (which never terminates once a scan keeps finding
merges without shrinking the map). -/
def simplifyFuel : ℕ → Pieces → Option Pieces
  | 0, _ => none
  | f + 1, pieces =>
    let st := scanOuter pieces
    if st.1.isEmpty then some pieces
    else simplifyFuel f (rebuild pieces st.1 st.2)

/-- `PiecewiseLinearFunction::simplify`.  Every productive rebuild strictly
decreases the piece count, so `length + 1` units of fuel decide termination
exactly. -/
def simplify (p : Pieces) : Option Pieces :=
  simplifyFuel (p.length + 1) p

/-- One iteration of the loop of `PiecewiseLinearFunction::add` over an
existing piece `e`, updating the `(differences, new_pieces)` state: if `e`
intersects the inserted domain, subtract `e`'s interval from every
uncovered difference, retain `e`'s parts outside the intersection, and
insert the summed function over the intersection; otherwise keep `e`
unchanged. -/
def addStep (dom : QI) (piece : LinearFunction) (st : List QI × Pieces)
    (e : QI × LinearFunction) : List QI × Pieces :=
  match Quantitative.intersection e.1 dom with
  | some inter =>
      (st.1.flatMap (fun r => Quantitative.difference r e.1),
       insertAL
         ((Quantitative.difference e.1 inter).foldl
           (fun acc i => insertAL acc i e.2) st.2)
         inter (e.2.sum piece))
  | none => (st.1, insertAL st.2 e.1 e.2)

/-- The body of `PiecewiseLinearFunction::add` building the new piece map
(before `simplify`): fold `addStep` over the existing pieces, then insert
the still uncovered `differences` with the new piece. -/
def addKernel (pieces : Pieces) (dom : QI) (piece : LinearFunction) : Pieces :=
  let st := pieces.foldl (addStep dom piece) ([dom], [])
  st.1.foldl (fun acc i => insertAL acc i piece) st.2

/-- `PiecewiseLinearFunction::add`.  `none` models both the
`InvalidPieceRange` error and divergence of the final `simplify`. -/
def add (p : Pieces) (inf sup : ℚ) (piece : LinearFunction) : Option Pieces :=
  match key inf sup with
  | some dom => simplify (addKernel p dom piece)
  | none => none

/-- `PiecewiseLinearFunction::merge`: re-insert every piece of `other`
(de-quantizing its key bounds) into a clone of `self` via `add`. -/
def merge (a b : Pieces) : Option Pieces :=
  b.foldl
    (fun acc e =>
      acc.bind (fun p => add p ((e.1.inf : ℚ) / 100000) ((e.1.sup : ℚ) / 100000) e.2))
    (some a)

/-- Derived `PartialEq` of `PiecewiseLinearFunction`: equality of the
underlying maps (key sets and the value at every key). -/
def lookup (p : Pieces) (k : QI) : Option LinearFunction :=
  (p.find? (fun e => e.1 == k)).map Prod.snd

/-- Map equality of two piece lists (the Rust `==` on `HashMap`s). -/
def plfBeq (p q : Pieces) : Bool :=
  p.all (fun e => lookup q e.1 == some e.2) && q.all (fun e => lookup p e.1 == some e.2)

/-- Two-decimal fixed formatting of a rational (the `{:.2}` of the `Display`
impl; ties never arise for the values rendered here). -/
def fmt2 (q : ℚ) : String :=
  let n := rround (q * 100)
  let m := n.natAbs
  (if n < 0 then "-" else "") ++ toString (m / 100) ++ "." ++
    (if m % 100 < 10 then "0" ++ toString (m % 100) else toString (m % 100))

/-- Rendering of one piece: `([inf, sup] => y = slope·x ± |intercept|)`. -/
def renderPiece (t : ℚ × ℚ × ℚ × ℚ) : String :=
  "([" ++ fmt2 t.1 ++ ", " ++ fmt2 t.2.1 ++ "] => y = " ++ fmt2 t.2.2.1 ++ "·x " ++
    (if t.2.2.2 < 0 then "-" else "+") ++ " " ++ fmt2 |t.2.2.2| ++ ")"

/-- Insertion into a list sorted by first component (the stable
`sort_by` on the lower bound in the `Display` impl). -/
def insertSorted (x : ℚ × ℚ × ℚ × ℚ) : List (ℚ × ℚ × ℚ × ℚ) → List (ℚ × ℚ × ℚ × ℚ)
  | [] => [x]
  | y :: ys => if x.1 ≤ y.1 then x :: y :: ys else y :: insertSorted x ys

/-- Sort the de-quantized pieces by lower bound. -/
def sortPieces (l : List (ℚ × ℚ × ℚ × ℚ)) : List (ℚ × ℚ × ℚ × ℚ) :=
  l.foldr insertSorted []

/-- The `Display` impl of `PiecewiseLinearFunction`: de-quantize, sort by
lower bound, render each piece with 2-decimal formatting, join by `"; "`. -/
def render (p : Pieces) : String :=
  String.intercalate "; "
    ((sortPieces (p.map (fun e =>
        ((e.1.inf : ℚ) / 100000, (e.1.sup : ℚ) / 100000, e.2.slope, e.2.intercept)))).map
      renderPiece)

end PiecewiseLinearFunction

/-- `fuzzy::membership::Trapezoidal`: four ordered points `a ≤ b ≤ c ≤ d`. -/
structure Trapezoidal where
  a : ℚ
  b : ℚ
  c : ℚ
  d : ℚ
deriving DecidableEq, Repr

namespace Trapezoidal

/-- Validity of a trapezoidal membership function (what `Trapezoidal::new`
guarantees about the stored points). -/
def valid (t : Trapezoidal) : Prop :=
  t.a ≤ t.b ∧ t.b ≤ t.c ∧ t.c ≤ t.d

instance (t : Trapezoidal) : Decidable t.valid := by
  unfold valid; infer_instance

/-- The ascending check of `Trapezoidal::new` (`limits[i] > limits[i+1]`
rejects the input). -/
def ascending : List ℚ → Bool
  | x :: y :: rest => decide (x ≤ y) && ascending (y :: rest)
  | _ => true

/-- `Trapezoidal::new`: 3 or 4 ascending limits; a 3-point input is stored
with `b = c` (triangular). -/
def new (limits : List ℚ) : Option Trapezoidal :=
  if limits.length < 3 then none
  else if limits.length > 4 then none
  else if ascending limits then
    match limits with
    | [x, y, z] => some ⟨x, y, y, z⟩
    | [x, y, z, w] => some ⟨x, y, z, w⟩
    | _ => none
  else none

/-- `Trapezoidal::membership_value`. -/
def membership_value (t : Trapezoidal) (x : ℚ) : ℚ :=
  if x ≤ t.a ∨ x ≥ t.d then 0
  else if x ≥ t.b ∧ x ≤ t.c then 1
  else if x < t.b then (x - t.a) / (t.b - t.a)
  else (x - t.d) / (t.c - t.d)

/-- `Trapezoidal::max_min`. -/
def max_min (t : Trapezoidal) (mn mx : ℚ) : ℚ :=
  if mx ≥ t.b ∧ mn ≤ t.c then 1
  else if mx < t.b then t.membership_value mx
  else t.membership_value mn

end Trapezoidal

namespace PiecewiseLinearFunction

/-- `impl From<&Trapezoidal> for PiecewiseLinearFunction`: insert the left
ramp, then the right ramp, then (when `b ≠ c`) the flat top `y = 1`. -/
def fromTrapezoidal (t : Trapezoidal) : Option Pieces :=
  let extremes := fun (f0 f1 : ℚ) (acc : Option Pieces) =>
    acc.bind (fun p =>
      if f0 ≠ f1 then
        let slope := 1 / (f1 - f0)
        add p (if f0 < f1 then f0 else f1) (if f0 < f1 then f1 else f0)
          (LinearFunction.new slope (-1 * slope * f0))
      else some p)
  let r2 := extremes t.d t.c (extremes t.a t.b (some []))
  if t.b ≠ t.c then
    r2.bind (fun p => add p t.b t.c (LinearFunction.new 0 1))
  else r2

/-- `impl From<&Qualitative<Trapezoidal>> for PiecewiseLinearFunction`:
fold `merge` over the labels' piecewise forms, starting from the empty
function.  Label names play no role in this conversion, so a qualitative
domain is represented by its list of trapezoidal memberships. -/
def fromQualitative (labels : List Trapezoidal) : Option Pieces :=
  labels.foldl
    (fun acc t => acc.bind (fun r => (fromTrapezoidal t).bind (fun ft => merge r ft)))
    (some [])

end PiecewiseLinearFunction

/-- `Qualitative::<Trapezoidal>::is_fuzzy_partition`: compare the merged
piecewise form of all labels with the piecewise function holding the single
piece `y = 1` over `[0, 1]`. -/
def is_fuzzy_partition (labels : List Trapezoidal) : Option Bool :=
  (PiecewiseLinearFunction.add [] 0 1 (LinearFunction.new 0 1)).bind (fun target =>
    (PiecewiseLinearFunction.fromQualitative labels).map
      (fun p => PiecewiseLinearFunction.plfBeq p target))

/-- Modelled from the spec's literal wording for `max_min`: `1` if
`[min, max]` covers (contains) the plateau `[b, c]`; otherwise
`membership_value(max)` if `max < b`; otherwise `membership_value(min)`.
This is the reading of the claim to be compared with the code's
`Trapezoidal::max_min`, whose first branch tests intersection with the
plateau instead. -/
def maxMinSpecRule (t : Trapezoidal) (mn mx : ℚ) : ℚ :=
  if mn ≤ t.b ∧ t.c ≤ mx then 1
  else if mx < t.b then t.membership_value mx
  else t.membership_value mn

/-- A rational that is unchanged by rounding to 5 decimals. -/
def exact5 (x : ℚ) : Prop :=
  round5 x = x

namespace PiecewiseLinearFunction

/-- Interior (open-interval) disjointness of two stored key intervals. -/
def openDisj (k l : QI) : Prop :=
  k.sup ≤ l.inf ∨ l.sup ≤ k.inf

/-- Well-formedness of a stored key interval: non-degenerate and within the
`i32` range produced by the saturating cast in `key`. -/
def goodKey (k : QI) : Prop :=
  k.inf < k.sup ∧ -(2 ^ 31) ≤ k.inf ∧ k.sup ≤ 2 ^ 31 - 1

/-- The piece-map invariant: every stored key is well formed, distinct
stored keys are interior disjoint, and keys are not duplicated (the map
discipline of `HashMap`). -/
def Inv (p : Pieces) : Prop :=
  (∀ e ∈ p, goodKey e.1) ∧
  (∀ e₁ ∈ p, ∀ e₂ ∈ p, e₁.1 ≠ e₂.1 → openDisj e₁.1 e₂.1) ∧
  (p.map Prod.fst).Nodup

/-- Fold invariant for the loop of `add`: the uncovered differences are
non-degenerate sub-intervals of the inserted domain and pairwise interior
disjoint; the new pieces are well formed, pairwise interior disjoint on
distinct keys, interior disjoint from every uncovered difference, and
interior disjoint from every not-yet-processed old piece (`rest`). -/
def KInv (dom : QI) (rest : Pieces) (st : List QI × Pieces) : Prop :=
  (∀ r ∈ st.1, r.inf < r.sup ∧ dom.inf ≤ r.inf ∧ r.sup ≤ dom.sup) ∧
  (∀ r₁ ∈ st.1, ∀ r₂ ∈ st.1, r₁ ≠ r₂ → openDisj r₁ r₂) ∧
  (∀ e ∈ st.2, goodKey e.1) ∧
  (∀ e₁ ∈ st.2, ∀ e₂ ∈ st.2, e₁.1 ≠ e₂.1 → openDisj e₁.1 e₂.1) ∧
  (∀ r ∈ st.1, ∀ e ∈ st.2, openDisj r e.1) ∧
  (∀ e ∈ st.2, ∀ e' ∈ rest, openDisj e.1 e'.1)

/-- Scan invariant for `simplify`'s double loop: every merged piece in
`to_add` is well formed, interior disjoint from every stored piece whose
key is not scheduled for removal, and the merged pieces are pairwise
interior disjoint on distinct keys. -/
def SInv (p : Pieces) (st : List QI × Pieces) : Prop :=
  (∀ m ∈ st.2, goodKey m.1) ∧
  (∀ m ∈ st.2, ∀ x ∈ p, x.1 ∉ st.1 → openDisj m.1 x.1) ∧
  (∀ m₁ ∈ st.2, ∀ m₂ ∈ st.2, m₁.1 ≠ m₂.1 → openDisj m₁.1 m₂.1)

/-- Decidable test that the quantized key of `[inf, sup]` exists and is
non-degenerate. -/
def keyNondeg (inf sup : ℚ) : Bool :=
  match key inf sup with
  | some k => decide (k.inf < k.sup)
  | none => false

/-- States reachable from `PiecewiseLinearFunction::new()` by finite
sequences of successful `add` calls whose quantized ranges are
non-degenerate. -/
inductive ReachableND : Pieces → Prop
  | base : ReachableND []
  | step {p q : Pieces} {inf sup : ℚ} {f : LinearFunction} :
      ReachableND p → keyNondeg inf sup = true → add p inf sup f = some q →
      ReachableND q

end PiecewiseLinearFunction

open PiecewiseLinearFunction

/-- The four-insertion scenario of the specification (§8) and of the doc
test of `PiecewiseLinearFunction::add`. -/
def scenario : Option Pieces :=
  (add [] 0 (2/10) (LinearFunction.new (13/10) (23/10))).bind (fun p =>
  (add p (1/10) (4/10) (LinearFunction.new (24/10) (33/10))).bind (fun p =>
  (add p (-(5/10)) (5/10) (LinearFunction.new 1 2)).bind (fun p =>
  add p (-(1/10)) (15/100) (LinearFunction.new 1 2))))

/-- A state reached by three successful `add` calls, the last one over the
degenerate range `[5, 5]`: the defective second disjunct of the adjacency
test in `simplify` merges the degenerate piece with the far-away piece
`[0, 1]`, producing `[0, 5]` which overlaps `[2, 3]`. -/
def degenerateAddState : Option Pieces :=
  (add [] 0 1 (LinearFunction.new 0 0)).bind (fun p =>
  (add p 2 3 (LinearFunction.new 5 5)).bind (fun p =>
  add p 5 5 (LinearFunction.new 0 0)))

/-- First state of the merge commutativity counterexample: the single piece
`[0, 3] ↦ 0.0001·x`. -/
def mergeCexA : Option Pieces :=
  add [] 0 3 (LinearFunction.new (1/10000) 0)

/-- Second state of the merge commutativity counterexample: the pieces
`[0, 2] ↦ 0.0003·x` and `[2, 3] ↦ 0.0005·x` (not merged by `simplify`
because `0.3` and `0.5` round to different 3-decimal buckets). -/
def mergeCexB : Option Pieces :=
  (add [] 0 2 (LinearFunction.new (3/10000) 0)).bind (fun p =>
  add p 2 3 (LinearFunction.new (5/10000) 0))

section Proofs

/- `Rat.mul`, `Rat.add`, `Rat.sub` and `Rat.inv` are `@[irreducible]` in
Batteries, which blocks `decide`'s evaluation of concrete rational
computations; restore the default reducibility for the proofs below. -/
attribute [local semireducible] Rat.mul Rat.add Rat.sub Rat.inv

set_option maxRecDepth 1000000

/-! ## C1: the exact rendering of the four-insertion scenario -/

/-- C1.  Starting from `PiecewiseLinearFunction::new()`, the four `add`
calls of the scenario all succeed and the canonical textual rendering
(pieces sorted by lower bound, 2-decimal formatting, joined by `"; "`) is
exactly the expected seven-piece string. -/
theorem scenario_exact_rendering :
    scenario.map render =
      some ("([-0.50, -0.10] => y = 1.00·x + 2.00); ([-0.10, 0.00] => y = 2.00·x + 4.00); " ++
        "([0.00, 0.10] => y = 3.30·x + 6.30); ([0.10, 0.15] => y = 5.70·x + 9.60); " ++
        "([0.15, 0.20] => y = 4.70·x + 7.60); ([0.20, 0.40] => y = 3.40·x + 5.30); " ++
        "([0.40, 0.50] => y = 1.00·x + 2.00)") := by
  decide

/-! ## C5: intersection of degenerate intervals -/

/-- C5.  `Quantitative::intersection` returns no result whenever either
interval is degenerate (`inf = sup`); in particular a degenerate interval
has no intersection with itself. -/
theorem intersection_degenerate {α : Type} [LinearOrder α] (A B : Quantitative α)
    (h : A.inf = A.sup ∨ B.inf = B.sup) :
    Quantitative.intersection A B = none := by
  unfold Quantitative.intersection
  rw [if_pos h]

/-- Witness for C5: the degenerate rational interval `[1, 1]` intersected
with itself gives no result. -/
theorem intersection_degenerate_witness :
    Quantitative.intersection (⟨1, 1⟩ : Quantitative ℚ) ⟨1, 1⟩ = none :=
  intersection_degenerate ⟨1, 1⟩ ⟨1, 1⟩ (Or.inl rfl)

/-! ## C6: the case analysis of difference -/

/-- C6.  `Quantitative::difference` produces zero, one or two sub-intervals
by exactly the case analysis of the claim: when `S.inf ≥ O.inf`, the result
is `[S]` if `S.inf ≥ O.sup`, else `[O.sup, S.sup]` if `S.sup > O.sup`, else
empty; otherwise when `S.sup > O.inf` the result always contains
`[S.inf, O.inf]` and contains `[O.sup, S.sup]` exactly when
`S.sup > O.sup`; otherwise it is `[S]` unchanged. -/
theorem difference_case_analysis (S O : Quantitative ℚ) :
    Quantitative.difference S O =
      if S.inf ≥ O.inf then
        (if S.inf ≥ O.sup then [S]
         else if S.sup > O.sup then [⟨O.sup, S.sup⟩]
         else [])
      else if S.sup > O.inf then
        ⟨S.inf, O.inf⟩ :: (if S.sup > O.sup then [⟨O.sup, S.sup⟩] else [])
      else [S] := by
  unfold Quantitative.difference
  split_ifs <;> first | rfl | (exfalso; linarith)

/-! ## C10: approximate equality collapses all negative values -/

/-- C10.  When `round(a·10^d)` and `round(b·10^d)` are both negative, the
saturating `u128` casts send both to `0`, so `approx_equal_f32` and
`approx_equal_f64` return `true` no matter how far apart `a` and `b` are. -/
theorem approx_equal_negative_collapse (a b : ℚ) (d : ℕ)
    (ha : rround (a * 10 ^ d) < 0) (hb : rround (b * 10 ^ d) < 0) :
    approx_equal_f32 a b d = true ∧ approx_equal_f64 a b d = true := by
  unfold approx_equal_f32 approx_equal_f64 castU128
  rw [if_pos ha, if_pos hb]
  exact ⟨by decide, by decide⟩

/-- Witness for C10: `approx_equal_f64(-10.0, -5.0, 3)` is `true`, so the
3-decimal comparison in `simplify` identifies the slopes `-10` and `-5`. -/
theorem approx_equal_negative_collapse_witness :
    (rround ((-10 : ℚ) * 10 ^ 3) < 0 ∧ rround ((-5 : ℚ) * 10 ^ 3) < 0) ∧
      approx_equal_f64 (-10) (-5) 3 = true :=
  ⟨⟨by decide, by decide⟩,
    (approx_equal_negative_collapse (-10) (-5) 3 (by decide) (by decide)).2⟩

/-! ## C2 (counterexample): a successful degenerate add breaks interior
disjointness -/

/-- Counterexample to C2 as stated.  The three `add` calls (the last over
the degenerate range `[5, 5]`) all succeed, yet the resulting state stores
the two distinct intervals `[200000, 300000]` and `[0, 500000]` whose open
interiors overlap: the defective adjacency disjunct `d_a.sup == d_a.inf`
lets the degenerate piece merge with the distant piece `[0, 1]`. -/
theorem degenerate_add_breaks_disjointness :
    degenerateAddState =
      some [(⟨200000, 300000⟩, LinearFunction.new 5 5), (⟨0, 500000⟩, LinearFunction.new 0 0)] ∧
    (⟨200000, 300000⟩ : QI) ≠ ⟨0, 500000⟩ ∧
    (250000 : ℚ) ∈ Set.Ioo ((200000 : ℤ) : ℚ) ((300000 : ℤ) : ℚ) ∩
      Set.Ioo ((0 : ℤ) : ℚ) ((500000 : ℤ) : ℚ) := by
  refine ⟨by decide, by decide, ?_, ?_⟩ <;> constructor <;> norm_num

/-! ## C4: max_min meets-vs-covers and maximality -/

/-- Helper: membership values of a valid trapezoid are nonnegative. -/
theorem membership_value_nonneg (t : Trapezoidal) (hv : t.valid) (x : ℚ) :
    0 ≤ t.membership_value x := by
  obtain ⟨h1, h2, h3⟩ := hv
  unfold Trapezoidal.membership_value
  split_ifs with g1 g2 g3
  · exact le_refl 0
  · exact zero_le_one
  · push_neg at g1
    apply div_nonneg <;> linarith [g1.1, g1.2]
  · push_neg at g1
    rcases not_and_or.mp g2 with hbx | hcx
    · exact absurd (not_lt.mp g3) hbx
    · rw [div_nonneg_iff]
      right
      constructor <;> push_neg at hcx <;> linarith [g1.2]

/-- Helper: membership values of a valid trapezoid are at most one. -/
theorem membership_value_le_one (t : Trapezoidal) (hv : t.valid) (x : ℚ) :
    t.membership_value x ≤ 1 := by
  obtain ⟨h1, h2, h3⟩ := hv
  unfold Trapezoidal.membership_value
  split_ifs with g1 g2 g3
  · exact zero_le_one
  · exact le_refl 1
  · push_neg at g1
    rw [div_le_one (by linarith [g1.1])]
    linarith
  · push_neg at g1
    rcases not_and_or.mp g2 with hbx | hcx
    · exact absurd (not_lt.mp g3) hbx
    · push_neg at hcx
      rw [div_le_one_iff]
      right; right
      constructor <;> linarith [g1.2]

/-- Helper: membership is `0` left of `a` and right of `d`. -/
theorem membership_value_eval_zero (t : Trapezoidal) (x : ℚ) (hx : x ≤ t.a ∨ x ≥ t.d) :
    t.membership_value x = 0 := by
  unfold Trapezoidal.membership_value
  rw [if_pos hx]

/-- Helper: membership on the open rising ramp is `(x - a) / (b - a)`. -/
theorem membership_value_eval_ramp_up (t : Trapezoidal) (hv : t.valid) (x : ℚ)
    (h1 : t.a < x) (h2 : x < t.b) :
    t.membership_value x = (x - t.a) / (t.b - t.a) := by
  obtain ⟨v1, v2, v3⟩ := hv
  unfold Trapezoidal.membership_value
  rw [if_neg (by push_neg; exact ⟨h1, by linarith⟩),
    if_neg (by push_neg; intro hb; exact absurd hb (not_le.mpr h2)),
    if_pos h2]

/-- Helper: membership on the open falling ramp is `(x - d) / (c - d)`. -/
theorem membership_value_eval_ramp_down (t : Trapezoidal) (hv : t.valid) (x : ℚ)
    (h1 : t.c < x) (h2 : x < t.d) :
    t.membership_value x = (x - t.d) / (t.c - t.d) := by
  obtain ⟨v1, v2, v3⟩ := hv
  unfold Trapezoidal.membership_value
  rw [if_neg (by push_neg; exact ⟨by linarith, h2⟩),
    if_neg (by push_neg; intro _; exact h1),
    if_neg (by push_neg; linarith)]

/-- Counterexample to C4 as stated.  On the doc-test trapezoid
`(0, 0.1, 0.2, 0.5)` with `min = 0.05`, `max = 0.15`, the code returns `1`
(the range meets the plateau) while the claim's literal rule (`1` only when
the range covers the plateau, else `membership_value` at an endpoint)
yields `0.5`. -/
theorem max_min_covers_cex :
    Trapezoidal.valid ⟨0, 1/10, 1/5, 1/2⟩ ∧
    Trapezoidal.max_min ⟨0, 1/10, 1/5, 1/2⟩ (1/20) (3/20) = 1 ∧
    maxMinSpecRule ⟨0, 1/10, 1/5, 1/2⟩ (1/20) (3/20) = 1/2 ∧
    Trapezoidal.max_min ⟨0, 1/10, 1/5, 1/2⟩ (1/20) (3/20) ≠
      maxMinSpecRule ⟨0, 1/10, 1/5, 1/2⟩ (1/20) (3/20) := by
  refine ⟨by decide, by decide, by decide, by decide⟩

/-- C4 as amended: for a trapezoid with proper ramps (`a < b ≤ c < d`) and
any `min ≤ max`, `max_min` returns `1` when `[min, max]` *meets* the
plateau `[b, c]`, otherwise `membership_value(max)` when `max < b`,
otherwise `membership_value(min)`; and this value is exactly the maximal
membership attained on `[min, max]`. -/
theorem max_min_meets_amended (t : Trapezoidal) (hab : t.a < t.b) (hbc : t.b ≤ t.c)
    (hcd : t.c < t.d) (mn mx : ℚ) (h : mn ≤ mx) :
    (t.max_min mn mx =
      if t.b ≤ mx ∧ mn ≤ t.c then 1
      else if mx < t.b then t.membership_value mx
      else t.membership_value mn) ∧
    (∀ x, mn ≤ x → x ≤ mx → t.membership_value x ≤ t.max_min mn mx) ∧
    (∃ x, mn ≤ x ∧ x ≤ mx ∧ t.membership_value x = t.max_min mn mx) := by
  have hv : t.valid := ⟨le_of_lt hab, hbc, le_of_lt hcd⟩
  refine ⟨rfl, ?_, ?_⟩
  · intro x hx1 hx2
    unfold Trapezoidal.max_min
    split_ifs with g1 g2
    · exact membership_value_le_one t hv x
    · -- mx < b: the whole range lies on the rising side
      rcases le_or_lt x t.a with hxa | hax
      · rw [membership_value_eval_zero t x (Or.inl hxa)]
        exact membership_value_nonneg t hv mx
      · have hxb : x < t.b := lt_of_le_of_lt hx2 g2
        rw [membership_value_eval_ramp_up t hv x hax hxb,
          membership_value_eval_ramp_up t hv mx (lt_of_lt_of_le hax hx2) g2,
          div_le_div_iff_of_pos_right (by linarith)]
        linarith
    · -- mx ≥ b and the range misses the plateau, so mn > c: falling side
      push_neg at g2
      have hcmn : t.c < mn := by
        by_contra hc
        exact g1 ⟨g2, not_lt.mp hc⟩
      rcases le_or_lt t.d x with hdx | hxd
      · rw [membership_value_eval_zero t x (Or.inr hdx)]
        exact membership_value_nonneg t hv mn
      · have hcx : t.c < x := lt_of_lt_of_le hcmn hx1
        have hmnd : mn < t.d := lt_of_le_of_lt hx1 hxd
        rw [membership_value_eval_ramp_down t hv x hcx hxd,
          membership_value_eval_ramp_down t hv mn hcmn hmnd,
          div_le_div_right_of_neg (by linarith)]
        linarith
  · -- attainment
    unfold Trapezoidal.max_min
    split_ifs with g1 g2
    · refine ⟨max mn t.b, le_max_left _ _, max_le h g1.1, ?_⟩
      have hup : max mn t.b ≤ t.c := max_le g1.2 hbc
      unfold Trapezoidal.membership_value
      rw [if_neg (by
            push_neg
            exact ⟨lt_of_lt_of_le hab (le_max_right mn t.b), by linarith⟩),
        if_pos ⟨le_max_right _ _, hup⟩]
    · exact ⟨mx, h, le_refl mx, rfl⟩
    · exact ⟨mn, le_refl mn, h, rfl⟩

/-- Witness for C4 (amended): on the counterexample inputs the amended rule
gives `1`, matching `max_min`. -/
theorem max_min_meets_amended_witness :
    Trapezoidal.max_min ⟨0, 1/10, 1/5, 1/2⟩ (1/20) (3/20) = 1 := by
  have h := max_min_meets_amended ⟨0, 1/10, 1/5, 1/2⟩ (by norm_num) (by norm_num)
    (by norm_num) (1/20) (3/20) (by norm_num)
  rw [h.1, if_pos (by norm_num)]

/-! ## C7 (counterexample): merge is not commutative -/

/-- Counterexample to C7.  `A = {[0,3] ↦ 0.0001·x}` and
`B = {[0,2] ↦ 0.0003·x, [2,3] ↦ 0.0005·x}` are both reachable by successful
`add` calls, yet `A.merge(&B)` stores `0.0001·x` on `[0, 2]` (the
`0.0003·x` contribution is first summed to `0.0004·x`, then thrown away
when `simplify` merges the 3-decimal-equal neighbours `0.0001·x` and
`0.0004·x`, keeping the former) while `B.merge(&A)` stores `0.0004·x`
there, so the two results are different maps. -/
theorem merge_not_commutative_cex :
    (mergeCexA.bind fun a => mergeCexB.bind fun b =>
      (merge a b).bind fun ab => (merge b a).map fun ba => plfBeq ab ba) = some false ∧
    (mergeCexA.bind fun a => mergeCexB.bind fun b => merge a b) =
      some [(⟨0, 200000⟩, ⟨1/10000, 0⟩), (⟨200000, 300000⟩, ⟨3/5000, 0⟩)] ∧
    (mergeCexA.bind fun a => mergeCexB.bind fun b => merge b a) =
      some [(⟨0, 200000⟩, ⟨1/2500, 0⟩), (⟨200000, 300000⟩, ⟨3/5000, 0⟩)] := by
  exact ⟨by decide, by decide, by decide⟩

/-! ## C8 (counterexample): the piecewise conversion is not pointwise exact -/

/-- Counterexample to C8.  For the trapezoid `(0, 0.3, 0.7, 1)` the left
ramp's ideal slope `10/3` is stored 5-decimal-rounded as `3.33333`, so at
`x = 0.15` (inside the stored interval `[0, 0.3]`) the stored function
evaluates to `0.4999995` while `membership_value` gives `0.5`. -/
theorem from_trapezoidal_not_exact_cex :
    Trapezoidal.valid ⟨0, 3/10, 7/10, 1⟩ ∧
    fromTrapezoidal ⟨0, 3/10, 7/10, 1⟩ =
      some [(⟨0, 30000⟩, ⟨333333/100000, 0⟩),
            (⟨70000, 100000⟩, ⟨-(333333/100000), 333333/100000⟩),
            (⟨30000, 70000⟩, ⟨0, 1⟩)] ∧
    (((0 : ℤ) : ℚ) / 100000 ≤ 3/20 ∧ (3/20 : ℚ) ≤ ((30000 : ℤ) : ℚ) / 100000) ∧
    LinearFunction.eval ⟨333333/100000, 0⟩ (3/20) = 999999/2000000 ∧
    Trapezoidal.membership_value ⟨0, 3/10, 7/10, 1⟩ (3/20) = 1/2 ∧
    LinearFunction.eval ⟨333333/100000, 0⟩ (3/20) ≠
      Trapezoidal.membership_value ⟨0, 3/10, 7/10, 1⟩ (3/20) := by
  refine ⟨by decide, by decide, ⟨by decide, by decide⟩, by decide, by decide, by decide⟩

/-! ## C9: the fuzzy-partition predicate -/

/-- C9.  `is_fuzzy_partition` returns `true` exactly when the merge of all
labels' piecewise forms equals (as a map) the single piece `y = 1` over
`[0, 1]`; the three triangular example domains give `true`, `false` and
`true` respectively. -/
theorem is_fuzzy_partition_characterization :
    (∀ labels p, fromQualitative labels = some p →
      is_fuzzy_partition labels = some (plfBeq p [(⟨0, 100000⟩, ⟨0, 1⟩)])) ∧
    Trapezoidal.new [0, 0, 1] = some ⟨0, 0, 0, 1⟩ ∧
    Trapezoidal.new [0, 0, 1/2] = some ⟨0, 0, 0, 1/2⟩ ∧
    Trapezoidal.new [0, 1/2, 1] = some ⟨0, 1/2, 1/2, 1⟩ ∧
    Trapezoidal.new [1/2, 1, 1] = some ⟨1/2, 1, 1, 1⟩ ∧
    Trapezoidal.new [0, 1, 1] = some ⟨0, 1, 1, 1⟩ ∧
    is_fuzzy_partition [⟨0, 0, 0, 1⟩, ⟨0, 1, 1, 1⟩] = some true ∧
    is_fuzzy_partition [⟨0, 0, 0, 1/2⟩, ⟨1/2, 1, 1, 1⟩] = some false ∧
    is_fuzzy_partition [⟨0, 0, 0, 1/2⟩, ⟨0, 1/2, 1/2, 1⟩, ⟨1/2, 1, 1, 1⟩] = some true := by
  refine ⟨?_, by decide, by decide, by decide, by decide, by decide,
    by decide, by decide, by decide⟩
  intro labels p hp
  unfold is_fuzzy_partition
  have htarget : add [] 0 1 (LinearFunction.new 0 1) = some [(⟨0, 100000⟩, ⟨0, 1⟩)] := by
    decide
  rw [htarget, hp]
  rfl

/-- Witness for C9: instantiating the characterization at the first example
domain, whose merged piecewise form is literally the single piece `y = 1`
over `[0, 1]`. -/
theorem is_fuzzy_partition_characterization_witness :
    is_fuzzy_partition [⟨0, 0, 0, 1⟩, ⟨0, 1, 1, 1⟩] =
      some (plfBeq [(⟨0, 100000⟩, ⟨0, 1⟩)] [(⟨0, 100000⟩, ⟨0, 1⟩)]) :=
  is_fuzzy_partition_characterization.1 [⟨0, 0, 0, 1⟩, ⟨0, 1, 1, 1⟩]
    [(⟨0, 100000⟩, ⟨0, 1⟩)] (by decide)

/-! ## Scan lemmas: an empty to_remove characterizes the merge-free states -/

/-- Helper: `rInsert` never returns the empty list. -/
theorem rInsert_ne_nil (s : List QI) (k : QI) : rInsert s k ≠ [] := by
  unfold rInsert
  split_ifs with h
  · cases s with
    | nil => simp at h
    | cons a t => simp
  · simp

/-- Helper: integer equality tests commute. -/
theorem beq_int_comm (a b : ℤ) : (a == b) = (b == a) := by
  by_cases h : a = b
  · subst h; rfl
  · rw [beq_eq_false_iff_ne.mpr h, beq_eq_false_iff_ne.mpr (Ne.symm h)]

/-- Helper: `approx_equal_f64` is symmetric. -/
theorem approx_equal_f64_symm (a b : ℚ) (d : ℕ) :
    approx_equal_f64 a b d = approx_equal_f64 b a d := by
  unfold approx_equal_f64
  exact beq_int_comm _ _

/-- Helper: the 3-decimal function comparison of `simplify` is symmetric. -/
theorem approxPair_symm (f g : LinearFunction) : approxPair f g = approxPair g f := by
  unfold approxPair
  rw [approx_equal_f64_symm, approx_equal_f64_symm f.intercept g.intercept]

/-- Helper: if the inner scan of `simplify` ends with an empty removal set,
it started empty and no processed pair satisfied the merge condition. -/
theorem scanInner_empty (da : QI) (fa : LinearFunction) :
    ∀ (l : Pieces) (st : List QI × Pieces),
      (List.foldl (scanStep da fa) st l).1 = [] →
      st.1 = [] ∧ ∀ e ∈ l, mergeCond da fa e.1 e.2 = false := by
  intro l
  induction l with
  | nil => intro st h; exact ⟨h, by intro e he; cases he⟩
  | cons e l ih =>
    intro st h
    rw [List.foldl_cons] at h
    obtain ⟨h1, h2⟩ := ih (scanStep da fa st e) h
    by_cases hc : (!st.1.contains da && !st.1.contains e.1 && mergeCond da fa e.1 e.2) = true
    · exfalso
      apply rInsert_ne_nil (rInsert st.1 da) e.1
      have hstep : scanStep da fa st e =
          (rInsert (rInsert st.1 da) e.1,
           insertAL st.2 ⟨min da.inf e.1.inf, max da.sup e.1.sup⟩ fa) := by
        unfold scanStep; rw [if_pos hc]
      rw [hstep] at h1
      exact h1
    · have hstep : scanStep da fa st e = st := by unfold scanStep; rw [if_neg hc]
      rw [hstep] at h1
      refine ⟨h1, ?_⟩
      intro e' he'
      rcases List.mem_cons.mp he' with rfl | hmem
      · rw [h1] at hc
        simpa using hc
      · exact h2 e' hmem

/-- Helper: if the outer scan of `simplify` ends with an empty removal set,
no pair of pieces satisfies the merge condition. -/
theorem scanOuter_empty (p : Pieces) (h : (scanOuter p).1 = []) :
    ∀ e₁ ∈ p, ∀ e₂ ∈ p, mergeCond e₁.1 e₁.2 e₂.1 e₂.2 = false := by
  suffices haux : ∀ (l : Pieces) (st : List QI × Pieces),
      (List.foldl
        (fun st e => if st.1.contains e.1 then st else List.foldl (scanStep e.1 e.2) st p)
        st l).1 = [] →
      st.1 = [] ∧ ∀ e₁ ∈ l, ∀ e₂ ∈ p, mergeCond e₁.1 e₁.2 e₂.1 e₂.2 = false by
    intro e₁ h₁ e₂ h₂
    exact (haux p ([], []) h).2 e₁ h₁ e₂ h₂
  intro l
  induction l with
  | nil => intro st h'; exact ⟨h', by intro e he; cases he⟩
  | cons e l ih =>
    intro st h'
    rw [List.foldl_cons] at h'
    obtain ⟨h1, h2⟩ := ih _ h'
    by_cases hc : st.1.contains e.1 = true
    · rw [if_pos hc] at h1
      rw [h1] at hc
      simp at hc
    · rw [if_neg hc] at h1
      obtain ⟨hst, hrow⟩ := scanInner_empty e.1 e.2 p st h1
      refine ⟨hst, ?_⟩
      intro e₁ h₁ e₂ h₂
      rcases List.mem_cons.mp h₁ with rfl | hmem
      · exact hrow e₂ h₂
      · exact h2 e₁ hmem e₂ h₂

/-- Helper: when no pair of pieces satisfies the merge condition, the scan
finds nothing to remove or add. -/
theorem scanOuter_of_no_merge (p : Pieces)
    (h : ∀ e₁ ∈ p, ∀ e₂ ∈ p, mergeCond e₁.1 e₁.2 e₂.1 e₂.2 = false) :
    scanOuter p = ([], []) := by
  have inner : ∀ da fa, (∀ e ∈ p, mergeCond da fa e.1 e.2 = false) →
      ∀ (l : Pieces), (∀ e ∈ l, e ∈ p) →
      List.foldl (scanStep da fa) (([], []) : List QI × Pieces) l = ([], []) := by
    intro da fa hda l
    induction l with
    | nil => intro _; rfl
    | cons e l ih =>
      intro hsub
      rw [List.foldl_cons]
      have hm : mergeCond da fa e.1 e.2 = false := hda e (hsub e (List.mem_cons_self e l))
      have hstep : scanStep da fa ([], []) e = ([], []) := by
        unfold scanStep
        rw [if_neg (by simp [hm])]
      rw [hstep]
      exact ih (fun x hx => hsub x (List.mem_cons_of_mem e hx))
  unfold scanOuter
  have haux : ∀ (l : Pieces), (∀ e ∈ l, e ∈ p) →
      List.foldl
        (fun st e => if st.1.contains e.1 then st else List.foldl (scanStep e.1 e.2) st p)
        (([], []) : List QI × Pieces) l = ([], []) := by
    intro l
    induction l with
    | nil => intro _; rfl
    | cons e l ih =>
      intro hsub
      rw [List.foldl_cons]
      have he : e ∈ p := hsub e (List.mem_cons_self e l)
      rw [if_neg (by simp)]
      rw [inner e.1 e.2 (fun x hx => h e he x hx) p (fun x hx => hx)]
      exact ih (fun x hx => hsub x (List.mem_cons_of_mem e hx))
  exact haux p (fun x hx => hx)

/-- Helper: a successful `simplifyFuel` ends in a state whose scan removes
nothing. -/
theorem simplifyFuel_scan_empty :
    ∀ (f : ℕ) (p q : Pieces), simplifyFuel f p = some q → (scanOuter q).1 = [] := by
  intro f
  induction f with
  | zero => intro p q h; cases h
  | succ f ih =>
    intro p q h
    simp only [simplifyFuel] at h
    by_cases hc : (scanOuter p).1.isEmpty = true
    · rw [if_pos hc] at h
      cases h
      exact List.isEmpty_iff.mp hc
    · rw [if_neg hc] at h
      exact ih _ q h

/-! ## C3: simplify leaves no mergeable pair and is idempotent -/

/-- C3.  After a terminating `simplify`, no two distinct stored pieces that
are adjacent (one's upper bound equals the other's lower bound) and whose
functions pass the 3-decimal comparison remain separate, and re-running
`simplify` on the result changes nothing. -/
theorem simplify_fixed_point :
    ∀ p q : Pieces, simplify p = some q →
      ((∀ e₁ ∈ q, ∀ e₂ ∈ q, e₁ ≠ e₂ → e₁.1.sup = e₂.1.inf →
          approxPair e₁.2 e₂.2 = true → False) ∧
        simplify q = some q) := by
  intro p q h
  have hscan : (scanOuter q).1 = [] := simplifyFuel_scan_empty _ p q h
  constructor
  · intro e₁ h₁ e₂ h₂ _ hadj happ
    have hfalse := scanOuter_empty q hscan e₂ h₂ e₁ h₁
    have htrue : mergeCond e₂.1 e₂.2 e₁.1 e₁.2 = true := by
      unfold mergeCond
      rw [hadj, approxPair_symm]
      simp [happ]
    rw [htrue] at hfalse
    exact Bool.noConfusion hfalse
  · unfold simplify
    simp only [simplifyFuel]
    simp [hscan]

/-- Witness for C3: the two adjacent equal pieces `[0,1]` and `[1,2]`
simplify to the single piece `[0,2]`, which is a fixed point of
`simplify`. -/
theorem simplify_fixed_point_witness :
    simplify [((⟨0, 2⟩ : QI), (⟨0, 0⟩ : LinearFunction))] = some [(⟨0, 2⟩, ⟨0, 0⟩)] :=
  (simplify_fixed_point [(⟨0, 1⟩, ⟨0, 0⟩), (⟨1, 2⟩, ⟨0, 0⟩)] [(⟨0, 2⟩, ⟨0, 0⟩)]
    (by decide)).2

/-! ## Interval arithmetic of the integer key intervals -/

/-- Helper: interior-disjoint non-degenerate intervals have no
intersection. -/
theorem inter_none_of_openDisj (k l : QI) (hk : k.inf < k.sup) (hl : l.inf < l.sup)
    (h : openDisj k l) : Quantitative.intersection k l = none := by
  unfold openDisj at h
  unfold Quantitative.intersection
  split_ifs <;> first | rfl | (exfalso; omega)

/-- Helper: a missing intersection of non-degenerate intervals means
interior disjointness. -/
theorem openDisj_of_inter_none (k l : QI) (hk : k.inf < k.sup) (hl : l.inf < l.sup)
    (h : Quantitative.intersection k l = none) : openDisj k l := by
  unfold Quantitative.intersection at h
  unfold openDisj
  split_ifs at h <;> omega

/-- Helper: a computed intersection of non-degenerate intervals is their
non-degenerate clamp. -/
theorem inter_some_bounds (k l i : QI) (hk : k.inf < k.sup) (hl : l.inf < l.sup)
    (h : Quantitative.intersection k l = some i) :
    i.inf = max k.inf l.inf ∧ i.sup = min k.sup l.sup ∧ i.inf < i.sup := by
  obtain ⟨ki, ks⟩ := k
  obtain ⟨li, ls⟩ := l
  obtain ⟨ii, is⟩ := i
  simp only at hk hl ⊢
  unfold Quantitative.intersection at h
  split_ifs at h <;>
    simp only [Option.some.injEq, Quantitative.mk.injEq] at h <;>
    obtain ⟨rfl, rfl⟩ := h <;>
    simp_all <;> omega

/-- Helper: every output of `difference` of non-degenerate intervals is a
non-degenerate sub-interval of the first, interior disjoint from the
second. -/
theorem diff_mem_spec (s o r : QI) (hs : s.inf < s.sup) (ho : o.inf < o.sup)
    (hr : r ∈ Quantitative.difference s o) :
    r.inf < r.sup ∧ s.inf ≤ r.inf ∧ r.sup ≤ s.sup ∧ openDisj r o := by
  obtain ⟨si, ss⟩ := s
  obtain ⟨oi, os⟩ := o
  simp only at hs ho ⊢
  unfold Quantitative.difference at hr
  unfold openDisj
  split_ifs at hr <;>
    simp only [List.mem_cons, List.mem_singleton, List.not_mem_nil, or_false] at hr <;>
    first
    | exact hr.elim
    | (subst hr; dsimp only at *; omega)
    | (rcases hr with rfl | rfl <;> dsimp only at * <;> omega)

/-- Helper: `openDisj` is symmetric. -/
theorem openDisj_symm : ∀ {k l : QI}, openDisj k l → openDisj l k :=
  fun h => Or.symm h

/-- Helper: the outputs of `difference` are positionally pairwise interior
disjoint. -/
theorem diff_pairwise (s o : QI) (ho : o.inf ≤ o.sup) :
    List.Pairwise openDisj (Quantitative.difference s o) := by
  obtain ⟨si, ss⟩ := s
  obtain ⟨oi, os⟩ := o
  simp only at ho
  unfold Quantitative.difference
  split_ifs <;>
    first
    | exact List.pairwise_singleton _ _
    | exact List.Pairwise.nil
    | (refine List.pairwise_cons.mpr ⟨?_, List.pairwise_singleton _ _⟩
       intro r hr
       simp only [List.mem_singleton] at hr
       subst hr
       unfold openDisj
       dsimp only
       omega)

/-- Helper: any two distinct outputs of `difference` are interior
disjoint. -/
theorem diff_pairwise_spec (s o r₁ r₂ : QI) (ho : o.inf ≤ o.sup)
    (h₁ : r₁ ∈ Quantitative.difference s o) (h₂ : r₂ ∈ Quantitative.difference s o)
    (hne : r₁ ≠ r₂) : openDisj r₁ r₂ :=
  (diff_pairwise s o ho).forall (fun _ _ h => openDisj_symm h) h₁ h₂ hne

/-- Helper: interior disjointness transfers to sub-intervals. -/
theorem openDisj_mono {P Q r q : QI} (h : openDisj P Q)
    (h1 : P.inf ≤ r.inf) (h2 : r.sup ≤ P.sup)
    (h3 : Q.inf ≤ q.inf) (h4 : q.sup ≤ Q.sup) : openDisj r q := by
  unfold openDisj at *
  omega

/-! ## Membership and key uniqueness through the insert operations -/

/-- Helper: an entry of `insertAL l k v` is an entry of `l` or `(k, v)`. -/
theorem mem_insertAL {l : Pieces} {k : QI} {v : LinearFunction} {e : QI × LinearFunction}
    (h : e ∈ insertAL l k v) : e ∈ l ∨ e = (k, v) := by
  unfold insertAL at h
  rcases List.mem_append.mp h with h | h
  · exact Or.inl (List.mem_of_mem_filter h)
  · simp only [List.mem_singleton] at h
    exact Or.inr h

/-- Helper: entries of the piece-by-piece insert fold. -/
theorem mem_foldl_insert_pieces :
    ∀ (l : Pieces) (acc : Pieces) (e : QI × LinearFunction),
      e ∈ List.foldl (fun acc x => insertAL acc x.1 x.2) acc l → e ∈ acc ∨ e ∈ l := by
  intro l
  induction l with
  | nil => intro acc e h; exact Or.inl h
  | cons x l ih =>
    intro acc e h
    rw [List.foldl_cons] at h
    rcases ih _ e h with h | h
    · rcases mem_insertAL h with h | rfl
      · exact Or.inl h
      · exact Or.inr (List.mem_cons_self x l)
    · exact Or.inr (List.mem_cons_of_mem x h)

/-- Helper: entries of the key-by-key insert fold with a fixed function. -/
theorem mem_foldl_insert_keys (f : LinearFunction) :
    ∀ (l : List QI) (acc : Pieces) (e : QI × LinearFunction),
      e ∈ List.foldl (fun acc i => insertAL acc i f) acc l →
      e ∈ acc ∨ ∃ k ∈ l, e = (k, f) := by
  intro l
  induction l with
  | nil => intro acc e h; exact Or.inl h
  | cons x l ih =>
    intro acc e h
    rw [List.foldl_cons] at h
    rcases ih _ e h with h | ⟨k, hk, rfl⟩
    · rcases mem_insertAL h with h | rfl
      · exact Or.inl h
      · exact Or.inr ⟨x, List.mem_cons_self x l, rfl⟩
    · exact Or.inr ⟨k, List.mem_cons_of_mem x hk, rfl⟩

/-- Helper: `insertAL` keeps the stored keys duplicate free. -/
theorem ndk_insertAL {l : Pieces} (k : QI) (v : LinearFunction)
    (h : (l.map Prod.fst).Nodup) : (((insertAL l k v).map Prod.fst)).Nodup := by
  unfold insertAL
  rw [List.map_append, List.nodup_append]
  refine ⟨((List.filter_sublist l).map Prod.fst).nodup h, by simp, ?_⟩
  intro a ha hmem
  simp only [List.map_cons, List.map_nil, List.mem_singleton] at hmem
  obtain ⟨e, he, hfst⟩ := List.mem_map.mp ha
  refine absurd (hfst.trans hmem) ?_
  have h2 := (List.mem_filter.mp he).2
  simpa using h2

/-- Helper: the piece-by-piece insert fold keeps keys duplicate free. -/
theorem ndk_foldl_insert_pieces :
    ∀ (l : Pieces) (acc : Pieces), ((acc.map Prod.fst)).Nodup →
      ((List.foldl (fun acc x => insertAL acc x.1 x.2) acc l).map Prod.fst).Nodup := by
  intro l
  induction l with
  | nil => intro acc h; exact h
  | cons x l ih =>
    intro acc h
    rw [List.foldl_cons]
    exact ih _ (ndk_insertAL x.1 x.2 h)

/-- Helper: the key-by-key insert fold keeps keys duplicate free. -/
theorem ndk_foldl_insert_keys (f : LinearFunction) :
    ∀ (l : List QI) (acc : Pieces), ((acc.map Prod.fst)).Nodup →
      ((List.foldl (fun acc i => insertAL acc i f) acc l).map Prod.fst).Nodup := by
  intro l
  induction l with
  | nil => intro acc h; exact h
  | cons x l ih =>
    intro acc h
    rw [List.foldl_cons]
    exact ih _ (ndk_insertAL x f h)

/-! ## The interior-disjointness invariant through add -/

/-- Helper: one `addStep` preserves the fold invariant of `add`. -/
theorem addStep_preserves (dom : QI) (hdom : goodKey dom) (piece : LinearFunction)
    (e : QI × LinearFunction) (l' : Pieces) (st : List QI × Pieces)
    (he : goodKey e.1)
    (hel : ∀ e' ∈ l', openDisj e.1 e'.1)
    (hK : KInv dom (e :: l') st) :
    KInv dom l' (addStep dom piece st e) := by
  obtain ⟨D1, D2, N1, N2, DN, NR⟩ := hK
  have hdn : dom.inf < dom.sup := hdom.1
  have hen : e.1.inf < e.1.sup := he.1
  unfold addStep
  cases hInter : Quantitative.intersection e.1 dom with
  | none =>
    have hdisj : openDisj e.1 dom := openDisj_of_inter_none e.1 dom hen hdn hInter
    dsimp only
    refine ⟨D1, D2, ?_, ?_, ?_, ?_⟩
    · intro x hx
      rcases mem_insertAL hx with hx | rfl
      · exact N1 x hx
      · exact he
    · intro e₁ h₁ e₂ h₂ hne
      rcases mem_insertAL h₁ with h₁ | rfl <;> rcases mem_insertAL h₂ with h₂ | rfl
      · exact N2 e₁ h₁ e₂ h₂ hne
      · exact NR e₁ h₁ e (List.mem_cons_self e l')
      · exact openDisj_symm (NR e₂ h₂ e (List.mem_cons_self e l'))
      · exact absurd rfl hne
    · intro r hr x hx
      rcases mem_insertAL hx with hx | rfl
      · exact DN r hr x hx
      · obtain ⟨hr1, hr2, hr3⟩ := D1 r hr
        exact openDisj_mono (openDisj_symm hdisj) hr2 hr3 (le_refl _) (le_refl _)
    · intro x hx e' he'
      rcases mem_insertAL hx with hx | rfl
      · exact NR x hx e' (List.mem_cons_of_mem e he')
      · exact hel e' he'
  | some inter =>
    obtain ⟨hi1, hi2, hi3⟩ := inter_some_bounds e.1 dom inter hen hdn hInter
    have hiw1 : e.1.inf ≤ inter.inf := by omega
    have hiw2 : inter.sup ≤ e.1.sup := by omega
    dsimp only
    have hds : ∀ r' ∈ st.1.flatMap (fun r => Quantitative.difference r e.1),
        ∃ r ∈ st.1, r'.inf < r'.sup ∧ r.inf ≤ r'.inf ∧ r'.sup ≤ r.sup ∧ openDisj r' e.1 := by
      intro r' hr'
      obtain ⟨r, hr, hmem⟩ := List.mem_flatMap.mp hr'
      obtain ⟨q1, q2, q3, q4⟩ := diff_mem_spec r e.1 r' (D1 r hr).1 hen hmem
      exact ⟨r, hr, q1, q2, q3, q4⟩
    have hnp : ∀ x ∈ insertAL ((Quantitative.difference e.1 inter).foldl
          (fun acc i => insertAL acc i e.2) st.2) inter (e.2.sum piece),
        x ∈ st.2 ∨
        ((x.1.inf < x.1.sup ∧ e.1.inf ≤ x.1.inf ∧ x.1.sup ≤ e.1.sup) ∧
          (x.1 ∈ Quantitative.difference e.1 inter ∨ x.1 = inter)) := by
      intro x hx
      rcases mem_insertAL hx with hx | rfl
      · rcases mem_foldl_insert_keys e.2 _ st.2 x hx with hx | ⟨k, hk, rfl⟩
        · exact Or.inl hx
        · obtain ⟨q1, q2, q3, q4⟩ := diff_mem_spec e.1 inter k hen hi3 hk
          exact Or.inr ⟨⟨q1, q2, q3⟩, Or.inl hk⟩
      · exact Or.inr ⟨⟨hi3, hiw1, hiw2⟩, Or.inr rfl⟩
    refine ⟨?_, ?_, ?_, ?_, ?_, ?_⟩
    · intro r' hr'
      obtain ⟨r, hr, q1, q2, q3, q4⟩ := hds r' hr'
      obtain ⟨p1, p2, p3⟩ := D1 r hr
      exact ⟨q1, by omega, by omega⟩
    · intro r₁ h₁ r₂ h₂ hne
      obtain ⟨ra, hra, hma⟩ := List.mem_flatMap.mp h₁
      obtain ⟨rb, hrb, hmb⟩ := List.mem_flatMap.mp h₂
      by_cases hab : ra = rb
      · subst hab
        exact diff_pairwise_spec ra e.1 r₁ r₂ (le_of_lt hen) hma hmb hne
      · obtain ⟨qa1, qa2, qa3, _⟩ := diff_mem_spec ra e.1 r₁ (D1 ra hra).1 hen hma
        obtain ⟨qb1, qb2, qb3, _⟩ := diff_mem_spec rb e.1 r₂ (D1 rb hrb).1 hen hmb
        exact openDisj_mono (D2 ra hra rb hrb hab) qa2 qa3 qb2 qb3
    · intro x hx
      rcases hnp x hx with hx | ⟨⟨q1, q2, q3⟩, _⟩
      · exact N1 x hx
      · obtain ⟨_, g2, g3⟩ := he
        exact ⟨q1, by omega, by omega⟩
    · intro e₁ h₁ e₂ h₂ hne
      rcases hnp e₁ h₁ with h₁' | ⟨⟨qa1, qa2, qa3⟩, ha⟩ <;>
        rcases hnp e₂ h₂ with h₂' | ⟨⟨qb1, qb2, qb3⟩, hb⟩
      · exact N2 e₁ h₁' e₂ h₂' hne
      · exact openDisj_mono (NR e₁ h₁' e (List.mem_cons_self e l'))
          (le_refl _) (le_refl _) qb2 qb3
      · exact openDisj_symm (openDisj_mono (NR e₂ h₂' e (List.mem_cons_self e l'))
          (le_refl _) (le_refl _) qa2 qa3)
      · rcases ha with ha | ha <;> rcases hb with hb | hb
        · exact diff_pairwise_spec e.1 inter e₁.1 e₂.1 (le_of_lt hi3) ha hb hne
        · obtain ⟨_, _, _, q4⟩ := diff_mem_spec e.1 inter e₁.1 hen hi3 ha
          rw [hb]
          exact q4
        · obtain ⟨_, _, _, q4⟩ := diff_mem_spec e.1 inter e₂.1 hen hi3 hb
          rw [ha]
          exact openDisj_symm q4
        · exact absurd (ha.trans hb.symm) hne
    · intro r' hr' x hx
      obtain ⟨r, hr, q1, q2, q3, q4⟩ := hds r' hr'
      rcases hnp x hx with hx' | ⟨⟨p1, p2, p3⟩, _⟩
      · exact openDisj_mono (DN r hr x hx') q2 q3 (le_refl _) (le_refl _)
      · exact openDisj_mono q4 (le_refl _) (le_refl _) p2 p3
    · intro x hx e' he'
      rcases hnp x hx with hx' | ⟨⟨p1, p2, p3⟩, _⟩
      · exact NR x hx' e' (List.mem_cons_of_mem e he')
      · exact openDisj_mono (hel e' he') p2 p3 (le_refl _) (le_refl _)

/-- Helper: folding `addStep` over pieces satisfying the map invariant
preserves the fold invariant. -/
theorem addStep_fold_inv (dom : QI) (hdom : goodKey dom) (piece : LinearFunction) :
    ∀ (l : Pieces) (st : List QI × Pieces),
      (∀ x ∈ l, goodKey x.1) →
      (∀ x₁ ∈ l, ∀ x₂ ∈ l, x₁.1 ≠ x₂.1 → openDisj x₁.1 x₂.1) →
      ((l.map Prod.fst).Nodup) →
      KInv dom l st →
      KInv dom [] (List.foldl (addStep dom piece) st l) := by
  intro l
  induction l with
  | nil => intro st _ _ _ hK; exact hK
  | cons e l ih =>
    intro st hg hpd hnd hK
    rw [List.foldl_cons]
    have hel : ∀ e' ∈ l, openDisj e.1 e'.1 := by
      intro e' he'
      apply hpd e (List.mem_cons_self e l) e' (List.mem_cons_of_mem e he')
      intro hcontra
      rw [List.map_cons] at hnd
      apply (List.nodup_cons.mp hnd).1
      rw [hcontra]
      exact List.mem_map_of_mem Prod.fst he'
    exact ih _ (fun x hx => hg x (List.mem_cons_of_mem e hx))
      (fun x₁ h₁ x₂ h₂ => hpd x₁ (List.mem_cons_of_mem e h₁) x₂ (List.mem_cons_of_mem e h₂))
      (by rw [List.map_cons] at hnd; exact (List.nodup_cons.mp hnd).2)
      (addStep_preserves dom hdom piece e l st (hg e (List.mem_cons_self e l)) hel hK)

/-- Helper: `addKernel` preserves the map invariant for a well-formed
domain. -/
theorem addKernel_inv (p : Pieces) (hp : Inv p) (dom : QI) (hdom : goodKey dom)
    (piece : LinearFunction) : Inv (addKernel p dom piece) := by
  obtain ⟨hg, hpd, hnd⟩ := hp
  have base : KInv dom p ([dom], []) := by
    refine ⟨?_, ?_, ?_, ?_, ?_, ?_⟩
    · intro r hr
      simp only [List.mem_singleton] at hr
      subst hr
      exact ⟨hdom.1, le_refl _, le_refl _⟩
    · intro r₁ h₁ r₂ h₂ hne
      simp only [List.mem_singleton] at h₁ h₂
      exact absurd (h₁.trans h₂.symm) hne
    · intro x hx; cases hx
    · intro x hx; cases hx
    · intro r _ x hx; cases hx
    · intro x hx; cases hx
  have hfold := addStep_fold_inv dom hdom piece p ([dom], []) hg hpd hnd base
  obtain ⟨D1, D2, N1, N2, DN, _⟩ := hfold
  have hndk : (((p.foldl (addStep dom piece) ([dom], [])).2).map Prod.fst).Nodup := by
    have haux : ∀ (l : Pieces) (st : List QI × Pieces), ((st.2.map Prod.fst)).Nodup →
        (((List.foldl (addStep dom piece) st l).2).map Prod.fst).Nodup := by
      intro l
      induction l with
      | nil => intro st h; exact h
      | cons e l ih =>
        intro st h
        rw [List.foldl_cons]
        apply ih
        unfold addStep
        cases Quantitative.intersection e.1 dom with
        | none => exact ndk_insertAL e.1 e.2 h
        | some inter => exact ndk_insertAL _ _ (ndk_foldl_insert_keys e.2 _ _ h)
    exact haux p ([dom], []) (by simp)
  simp only [addKernel]
  refine ⟨?_, ?_, ?_⟩
  · intro x hx
    rcases mem_foldl_insert_keys piece _ _ x hx with hx | ⟨k, hk, rfl⟩
    · exact N1 x hx
    · obtain ⟨q1, q2, q3⟩ := D1 k hk
      obtain ⟨_, g2, g3⟩ := hdom
      exact ⟨q1, by dsimp only; omega, by dsimp only; omega⟩
  · intro e₁ h₁ e₂ h₂ hne
    rcases mem_foldl_insert_keys piece _ _ e₁ h₁ with h₁' | ⟨k₁, hk₁, rfl⟩ <;>
      rcases mem_foldl_insert_keys piece _ _ e₂ h₂ with h₂' | ⟨k₂, hk₂, rfl⟩
    · exact N2 e₁ h₁' e₂ h₂' hne
    · exact openDisj_symm (DN k₂ hk₂ e₁ h₁')
    · exact DN k₁ hk₁ e₂ h₂'
    · exact D2 k₁ hk₁ k₂ hk₂ hne
  · exact ndk_foldl_insert_keys piece _ _ hndk

/-! ## The interior-disjointness invariant through simplify -/

/-- Helper: `contains` agrees with membership on key lists. -/
theorem contains_iff_mem (s : List QI) (k : QI) : s.contains k = true ↔ k ∈ s := by
  simp

/-- Helper: the inserted key is in the result of `rInsert`. -/
theorem mem_rInsert_self (s : List QI) (k : QI) : k ∈ rInsert s k := by
  unfold rInsert
  split_ifs with h
  · exact (contains_iff_mem s k).mp h
  · exact List.mem_cons_self k s

/-- Helper: `rInsert` keeps the existing members. -/
theorem mem_rInsert_of_mem (s : List QI) (k x : QI) (h : x ∈ s) : x ∈ rInsert s k := by
  unfold rInsert
  split_ifs
  · exact h
  · exact List.mem_cons_of_mem k h

/-- Helper: one `scanStep` preserves the scan invariant. -/
theorem scanStep_inv (p : Pieces) (hp : Inv p) (da : QI) (fa : LinearFunction)
    (hda : (da, fa) ∈ p) (e : QI × LinearFunction) (he : e ∈ p)
    (st : List QI × Pieces) (hS : SInv p st) : SInv p (scanStep da fa st e) := by
  obtain ⟨hg, hpd, hnd⟩ := hp
  obtain ⟨T1, T2, T3⟩ := hS
  unfold scanStep
  by_cases hc : (!st.1.contains da && !st.1.contains e.1 && mergeCond da fa e.1 e.2) = true
  case neg => rw [if_neg hc]; exact ⟨T1, T2, T3⟩
  rw [if_pos hc]
  simp only [Bool.and_eq_true, Bool.not_eq_true'] at hc
  obtain ⟨⟨hcda, hcdb⟩, hcm⟩ := hc
  have hdaNot : da ∉ st.1 := fun hm => by
    rw [(contains_iff_mem st.1 da).mpr hm] at hcda
    cases hcda
  have hdbNot : e.1 ∉ st.1 := fun hm => by
    rw [(contains_iff_mem st.1 e.1).mpr hm] at hcdb
    cases hcdb
  have hgda : goodKey da := hg (da, fa) hda
  have hgdb : goodKey e.1 := hg e he
  unfold mergeCond at hcm
  simp only [Bool.and_eq_true, Bool.or_eq_true, beq_iff_eq] at hcm
  obtain ⟨hor, _⟩ := hcm
  have hadj : da.inf = e.1.sup := by
    rcases hor with h | h
    · exact h
    · exact absurd h (by have := hgda.1; omega)
  have hkne : e.1 ≠ da := by
    intro hcontra
    rw [hcontra] at hadj
    have := hgda.1
    omega
  have hmin : min da.inf e.1.inf = e.1.inf := by
    have := hgdb.1
    omega
  have hmax : max da.sup e.1.sup = da.sup := by
    have := hgda.1
    omega
  rw [hmin, hmax]
  have hnda := hgda.1
  have hndb := hgdb.1
  refine ⟨?_, ?_, ?_⟩
  · intro m hm
    rcases mem_insertAL hm with hm | rfl
    · exact T1 m hm
    · have h2 := hgda.2.2
      have h4 := hgdb.2.1
      exact ⟨by dsimp only; omega, by dsimp only; omega, by dsimp only; omega⟩
  · intro m hm x hx hxmem
    have hxda : x.1 ≠ da := by
      intro hcontra
      apply hxmem
      rw [hcontra]
      exact mem_rInsert_of_mem _ _ _ (mem_rInsert_self st.1 da)
    have hxdb : x.1 ≠ e.1 := by
      intro hcontra
      apply hxmem
      rw [hcontra]
      exact mem_rInsert_self _ e.1
    have hxst : x.1 ∉ st.1 := fun hcontra => hxmem
      (mem_rInsert_of_mem _ _ _ (mem_rInsert_of_mem _ _ _ hcontra))
    rcases mem_insertAL hm with hm | rfl
    · exact T2 m hm x hx hxst
    · have hd1 : openDisj x.1 da := hpd x hx (da, fa) hda hxda
      have hd2 : openDisj x.1 e.1 := hpd x hx e he hxdb
      have hgx := hg x hx
      have g1 := hgx.1
      unfold openDisj at hd1 hd2 ⊢
      dsimp only
      omega
  · intro m₁ h₁ m₂ h₂ hne
    rcases mem_insertAL h₁ with h₁ | rfl <;> rcases mem_insertAL h₂ with h₂ | rfl
    · exact T3 m₁ h₁ m₂ h₂ hne
    · have hd1 : openDisj m₁.1 da := T2 m₁ h₁ (da, fa) hda hdaNot
      have hd2 : openDisj m₁.1 e.1 := T2 m₁ h₁ e he hdbNot
      have g1 := (T1 m₁ h₁).1
      unfold openDisj at hd1 hd2 ⊢
      dsimp only
      omega
    · have hd1 : openDisj m₂.1 da := T2 m₂ h₂ (da, fa) hda hdaNot
      have hd2 : openDisj m₂.1 e.1 := T2 m₂ h₂ e he hdbNot
      have g1 := (T1 m₂ h₂).1
      unfold openDisj at hd1 hd2 ⊢
      dsimp only
      omega
    · exact absurd rfl hne


/-- Helper: the inner scan fold preserves the scan invariant. -/
theorem scanInner_inv (p : Pieces) (hp : Inv p) (da : QI) (fa : LinearFunction)
    (hda : (da, fa) ∈ p) :
    ∀ (l : Pieces), (∀ x ∈ l, x ∈ p) → ∀ st, SInv p st →
      SInv p (List.foldl (scanStep da fa) st l) := by
  intro l
  induction l with
  | nil => intro _ st h; exact h
  | cons e l ih =>
    intro hsub st h
    rw [List.foldl_cons]
    exact ih (fun x hx => hsub x (List.mem_cons_of_mem e hx)) _
      (scanStep_inv p hp da fa hda e (hsub e (List.mem_cons_self e l)) st h)

/-- Helper: the whole scan satisfies the scan invariant. -/
theorem scanOuter_inv (p : Pieces) (hp : Inv p) : SInv p (scanOuter p) := by
  unfold scanOuter
  have haux : ∀ (l : Pieces), (∀ x ∈ l, x ∈ p) → ∀ st, SInv p st →
      SInv p (List.foldl (fun st e => if st.1.contains e.1 then st
        else List.foldl (scanStep e.1 e.2) st p) st l) := by
    intro l
    induction l with
    | nil => intro _ st h; exact h
    | cons e l ih =>
      intro hsub st h
      rw [List.foldl_cons]
      apply ih (fun x hx => hsub x (List.mem_cons_of_mem e hx))
      by_cases hc : st.1.contains e.1 = true
      · rw [if_pos hc]; exact h
      · rw [if_neg hc]
        exact scanInner_inv p hp e.1 e.2 (hsub e (List.mem_cons_self e l)) p
          (fun x hx => hx) st h
  apply haux p (fun x hx => hx) ([], [])
  refine ⟨?_, ?_, ?_⟩
  · intro m hm; cases hm
  · intro m hm; cases hm
  · intro m hm; cases hm

/-- Helper: the rebuild step of `simplify` restores the map invariant. -/
theorem rebuild_inv (p : Pieces) (hp : Inv p) (rem : List QI) (ta : Pieces)
    (T1 : ∀ m ∈ ta, goodKey m.1)
    (T2 : ∀ m ∈ ta, ∀ x ∈ p, x.1 ∉ rem → openDisj m.1 x.1)
    (T3 : ∀ m₁ ∈ ta, ∀ m₂ ∈ ta, m₁.1 ≠ m₂.1 → openDisj m₁.1 m₂.1) :
    Inv (rebuild p rem ta) := by
  obtain ⟨hg, hpd, hnd⟩ := hp
  unfold rebuild
  have hkept : ∀ x ∈ p.filter (fun e => !rem.contains e.1), x ∈ p ∧ x.1 ∉ rem := by
    intro x hx
    obtain ⟨h1, h2⟩ := List.mem_filter.mp hx
    refine ⟨h1, fun hmem => ?_⟩
    rw [Bool.not_eq_true'] at h2
    rw [(contains_iff_mem rem x.1).mpr hmem] at h2
    cases h2
  refine ⟨?_, ?_, ?_⟩
  · intro x hx
    rcases mem_foldl_insert_pieces ta _ x hx with hx | hx
    · exact hg x (hkept x hx).1
    · exact T1 x hx
  · intro e₁ h₁ e₂ h₂ hne
    rcases mem_foldl_insert_pieces ta _ e₁ h₁ with h₁' | h₁' <;>
      rcases mem_foldl_insert_pieces ta _ e₂ h₂ with h₂' | h₂'
    · exact hpd e₁ (hkept e₁ h₁').1 e₂ (hkept e₂ h₂').1 hne
    · exact openDisj_symm (T2 e₂ h₂' e₁ (hkept e₁ h₁').1 (hkept e₁ h₁').2)
    · exact T2 e₁ h₁' e₂ (hkept e₂ h₂').1 (hkept e₂ h₂').2
    · exact T3 e₁ h₁' e₂ h₂' hne
  · exact ndk_foldl_insert_pieces ta _
      (((List.filter_sublist p).map Prod.fst).nodup hnd)

/-- Helper: a successful `simplifyFuel` preserves the map invariant. -/
theorem simplifyFuel_inv :
    ∀ (f : ℕ) (p q : Pieces), Inv p → simplifyFuel f p = some q → Inv q := by
  intro f
  induction f with
  | zero => intro p q _ h; cases h
  | succ f ih =>
    intro p q hp h
    simp only [simplifyFuel] at h
    by_cases hc : (scanOuter p).1.isEmpty = true
    · rw [if_pos hc] at h
      cases h
      exact hp
    · rw [if_neg hc] at h
      obtain ⟨T1, T2, T3⟩ := scanOuter_inv p hp
      exact ih _ q (rebuild_inv p hp _ _ T1 T2 T3) h

/-- Helper: `sat32` always lands inside the `i32` range. -/
theorem sat32_range (n : ℤ) : -(2 ^ 31) ≤ sat32 n ∧ sat32 n ≤ 2 ^ 31 - 1 := by
  unfold sat32
  split_ifs <;> omega

/-- Helper: a successful `add` with a non-degenerate quantized range
preserves the map invariant. -/
theorem add_inv (p : Pieces) (hp : Inv p) (inf sup : ℚ) (f : LinearFunction)
    (q : Pieces) (hnd : keyNondeg inf sup = true) (h : add p inf sup f = some q) :
    Inv q := by
  unfold add at h
  cases hkey : key inf sup with
  | none => rw [hkey] at h; cases h
  | some dom =>
    rw [hkey] at h
    have hdom : goodKey dom := by
      unfold keyNondeg at hnd
      rw [hkey] at hnd
      have h1 : dom.inf < dom.sup := of_decide_eq_true hnd
      unfold key Quantitative.new at hkey
      split_ifs at hkey
      simp only [Option.some.injEq] at hkey
      rw [← hkey]
      exact ⟨by rw [hkey]; exact h1, (sat32_range _).1, (sat32_range _).2⟩
    exact simplifyFuel_inv _ _ q (addKernel_inv p hp dom hdom f) h

/-- Helper: every reachable state satisfies the map invariant. -/
theorem reachableND_inv (p : Pieces) (h : ReachableND p) : Inv p := by
  induction h with
  | base =>
    refine ⟨?_, ?_, ?_⟩
    · intro x hx; cases hx
    · intro x hx; cases hx
    · exact List.nodup_nil
  | step hr hk ha ih => exact add_inv _ ih _ _ _ _ hk ha

/-! ## C2 (amended): non-degenerate reachable states have pairwise disjoint
interiors -/

/-- C2 as amended: for every `PiecewiseLinearFunction` reachable from
`new()` by successful `add` calls whose quantized ranges are
non-degenerate, the open interiors of any two distinct stored key intervals
are disjoint. -/
theorem reachable_interior_disjoint (p : Pieces) (h : ReachableND p) :
    ∀ e₁ ∈ p, ∀ e₂ ∈ p, e₁.1 ≠ e₂.1 →
      Set.Ioo ((e₁.1.inf : ℚ)) ((e₁.1.sup : ℚ)) ∩
        Set.Ioo ((e₂.1.inf : ℚ)) ((e₂.1.sup : ℚ)) = ∅ := by
  intro e₁ h₁ e₂ h₂ hne
  obtain ⟨hg, hpd, _⟩ := reachableND_inv p h
  have hd := hpd e₁ h₁ e₂ h₂ hne
  rw [Set.eq_empty_iff_forall_not_mem]
  intro x hx
  simp only [Set.mem_inter_iff, Set.mem_Ioo] at hx
  obtain ⟨⟨a1, a2⟩, b1, b2⟩ := hx
  unfold openDisj at hd
  rcases hd with hd | hd
  · have hc : ((e₁.1.sup : ℚ)) ≤ ((e₂.1.inf : ℚ)) := by exact_mod_cast hd
    linarith
  · have hc : ((e₂.1.sup : ℚ)) ≤ ((e₁.1.inf : ℚ)) := by exact_mod_cast hd
    linarith

/-- Witness for C2 (amended): the two pieces of a concrete reachable state
have disjoint interiors. -/
theorem reachable_interior_disjoint_witness :
    Set.Ioo (((0 : ℤ) : ℚ)) ((200000 : ℤ) : ℚ) ∩
      Set.Ioo (((200000 : ℤ) : ℚ)) ((300000 : ℤ) : ℚ) = ∅ := by
  have hstate : ReachableND [((⟨0, 200000⟩ : QI), (⟨3/10000, 0⟩ : LinearFunction)),
      (⟨200000, 300000⟩, ⟨1/2000, 0⟩)] :=
    @ReachableND.step [(⟨0, 200000⟩, ⟨3/10000, 0⟩)]
      [(⟨0, 200000⟩, ⟨3/10000, 0⟩), (⟨200000, 300000⟩, ⟨1/2000, 0⟩)]
      2 3 (LinearFunction.new (5/10000) 0)
      (@ReachableND.step [] [(⟨0, 200000⟩, ⟨3/10000, 0⟩)] 0 2
        (LinearFunction.new (3/10000) 0) ReachableND.base (by decide) (by decide))
      (by decide) (by decide)
  exact reachable_interior_disjoint _ hstate (⟨0, 200000⟩, ⟨3/10000, 0⟩) (by decide)
    (⟨200000, 300000⟩, ⟨1/2000, 0⟩) (by decide) (by decide)

/-! ## Round-trip of the quantized keys -/

/-- Helper: rounding an integer-valued rational returns the integer. -/
theorem rround_int (n : ℤ) : rround (n : ℚ) = n := by
  unfold rround
  have hhalf : (⌊(1 / 2 : ℚ)⌋ : ℤ) = 0 := by
    rw [Int.floor_eq_zero_iff, Set.mem_Ico]
    constructor <;> norm_num
  have h0 : (⌊((n : ℚ) + 1 / 2)⌋ : ℤ) = n := by
    rw [add_comm, Int.floor_add_int, hhalf]
    omega
  have h1 : (⌊(-(n : ℚ) + 1 / 2)⌋ : ℤ) = -n := by
    rw [show -(n : ℚ) = ((-n : ℤ) : ℚ) by push_cast; ring, add_comm, Int.floor_add_int,
      hhalf]
    omega
  split_ifs with h
  · rw [h1]
    omega
  · exact h0

/-- Helper: de-quantizing a well-formed key's bounds and re-quantizing them
reproduces the key. -/
theorem key_roundtrip (k : QI) (hk : goodKey k) :
    key ((k.inf : ℚ) / 100000) ((k.sup : ℚ) / 100000) = some k := by
  obtain ⟨h1, h2, h3⟩ := hk
  have hx : ((k.inf : ℚ) / 100000) * 100000 = ((k.inf : ℚ)) :=
    div_mul_cancel₀ _ (by norm_num)
  have hy : ((k.sup : ℚ) / 100000) * 100000 = ((k.sup : ℚ)) :=
    div_mul_cancel₀ _ (by norm_num)
  unfold key
  rw [hx, hy, rround_int, rround_int]
  have hsx : sat32 k.inf = k.inf := by unfold sat32; split_ifs <;> omega
  have hsy : sat32 k.sup = k.sup := by unfold sat32; split_ifs <;> omega
  rw [hsx, hsy]
  unfold Quantitative.new
  have heta : (⟨k.inf, k.sup⟩ : QI) = k := rfl
  rw [if_neg (show ¬ k.inf > k.sup by omega), heta]

/-- Helper: on exact 5-decimal bounds inside the quantization range, `key`
succeeds and the produced integer bounds are the scaled inputs. -/
theorem key_exact (x y : ℚ) (hx : exact5 x) (hy : exact5 y) (hxy : x < y)
    (hlo : -(2 ^ 31) ≤ rround (x * 100000)) (hhi : rround (y * 100000) ≤ 2 ^ 31 - 1) :
    ∃ k : QI, key x y = some k ∧ goodKey k ∧
      ((k.inf : ℚ)) = x * 100000 ∧ ((k.sup : ℚ)) = y * 100000 := by
  have hxq : ((rround (x * 100000) : ℤ) : ℚ) = x * 100000 := by
    have h := hx
    unfold exact5 round5 at h
    field_simp at h
    linarith
  have hyq : ((rround (y * 100000) : ℤ) : ℚ) = y * 100000 := by
    have h := hy
    unfold exact5 round5 at h
    field_simp at h
    linarith
  have hlt : rround (x * 100000) < rround (y * 100000) := by
    have h : ((rround (x * 100000) : ℤ) : ℚ) < ((rround (y * 100000) : ℤ) : ℚ) := by
      rw [hxq, hyq]
      linarith
    exact_mod_cast h
  refine ⟨⟨rround (x * 100000), rround (y * 100000)⟩, ?_, ⟨hlt, hlo, hhi⟩, hxq, hyq⟩
  unfold key
  have hsx : sat32 (rround (x * 100000)) = rround (x * 100000) := by
    unfold sat32; split_ifs <;> omega
  have hsy : sat32 (rround (y * 100000)) = rround (y * 100000) := by
    unfold sat32; split_ifs <;> omega
  rw [hsx, hsy]
  unfold Quantitative.new
  rw [if_neg (show ¬ rround (x * 100000) > rround (y * 100000) by omega)]

/-! ## Adding a piece disjoint from the whole map appends it -/

/-- Helper: inserting a binding under a fresh key appends it. -/
theorem insertAL_fresh (l : Pieces) (k : QI) (v : LinearFunction)
    (h : k ∉ l.map Prod.fst) : insertAL l k v = l ++ [(k, v)] := by
  unfold insertAL
  have hfilter : l.filter (fun e => !(e.1 == k)) = l := by
    apply List.filter_eq_self.mpr
    intro e he
    have hne : e.1 ≠ k := by
      intro hk
      exact h (by rw [← hk]; exact List.mem_map_of_mem Prod.fst he)
    simp [hne]
  rw [hfilter]

/-- Helper: the merge condition fails without adjacency. -/
theorem mergeCond_not_adj (da db : QI) (fa fb : LinearFunction)
    (h1 : da.inf ≠ db.sup) (h2 : da.sup ≠ da.inf) :
    mergeCond da fa db fb = false := by
  unfold mergeCond
  rw [beq_eq_false_iff_ne.mpr h1, beq_eq_false_iff_ne.mpr h2]
  rfl

/-- Helper: the merge condition fails when the 3-decimal function
comparison fails. -/
theorem mergeCond_not_approx (da db : QI) (fa fb : LinearFunction)
    (h : approxPair fa fb = false) :
    mergeCond da fa db fb = false := by
  unfold mergeCond
  rw [h, Bool.and_false]

/-- Helper: when no processed piece intersects the new domain, the fold of
`add` keeps the domain as the only difference and re-inserts the pieces
unchanged, in order. -/
theorem addKernel_fold_none (k : QI) (f : LinearFunction) :
    ∀ (l acc : Pieces),
      (∀ e ∈ l, Quantitative.intersection e.1 k = none) →
      (∀ e ∈ l, e.1 ∉ acc.map Prod.fst) →
      (l.map Prod.fst).Nodup →
      List.foldl (addStep k f) ([k], acc) l = ([k], acc ++ l) := by
  intro l
  induction l with
  | nil => intro acc _ _ _; simp
  | cons e l ih =>
    intro acc hint hfr hnd
    rw [List.foldl_cons]
    have hI := hint e (List.mem_cons_self e l)
    have hstep : addStep k f ([k], acc) e = ([k], insertAL acc e.1 e.2) := by
      unfold addStep
      rw [hI]
    rw [hstep, insertAL_fresh acc e.1 e.2 (hfr e (List.mem_cons_self e l))]
    have hnd2 : (l.map Prod.fst).Nodup := by
      simp only [List.map_cons] at hnd
      exact hnd.of_cons
    have hhead : e.1 ∉ l.map Prod.fst := by
      simp only [List.map_cons] at hnd
      exact (List.nodup_cons.mp hnd).1
    have hfr2 : ∀ x ∈ l, x.1 ∉ (acc ++ [e]).map Prod.fst := by
      intro x hx
      rw [List.map_append]
      intro hmem
      rcases List.mem_append.mp hmem with hmem | hmem
      · exact hfr x (List.mem_cons_of_mem e hx) hmem
      · simp only [List.map_cons, List.map_nil, List.mem_singleton] at hmem
        exact hhead (hmem ▸ List.mem_map_of_mem Prod.fst hx)
    have hgoal := ih (acc ++ [e]) (fun x hx => hint x (List.mem_cons_of_mem e hx))
      hfr2 hnd2
    rw [show (acc ++ [e]) ++ l = acc ++ e :: l by
      rw [List.append_assoc, List.singleton_append]] at hgoal
    exact hgoal

/-- Helper: building the map of `add` for a domain disjoint from every
stored piece appends the new piece. -/
theorem addKernel_fresh (p : Pieces) (k : QI) (f : LinearFunction)
    (hnd : (p.map Prod.fst).Nodup)
    (hdisj : ∀ e ∈ p, Quantitative.intersection e.1 k = none)
    (hkf : k ∉ p.map Prod.fst) :
    addKernel p k f = p ++ [(k, f)] := by
  simp only [addKernel]
  rw [addKernel_fold_none k f p [] hdisj (by intro e _; simp) hnd]
  simp only [List.nil_append]
  rw [List.foldl_cons, List.foldl_nil]
  exact insertAL_fresh p k f hkf

/-- Helper: a successful `add` of a piece interior disjoint from every
stored piece, whose enlarged map triggers no merge, appends the piece. -/
theorem add_fresh (p : Pieces) (inf sup : ℚ) (f : LinearFunction) (k : QI)
    (hk : key inf sup = some k)
    (hnd : (p.map Prod.fst).Nodup)
    (hdisj : ∀ e ∈ p, Quantitative.intersection e.1 k = none)
    (hkf : k ∉ p.map Prod.fst)
    (hnm : ∀ e₁ ∈ p ++ [(k, f)], ∀ e₂ ∈ p ++ [(k, f)],
        mergeCond e₁.1 e₁.2 e₂.1 e₂.2 = false) :
    add p inf sup f = some (p ++ [(k, f)]) := by
  unfold add
  rw [hk]
  show simplify (addKernel p k f) = some (p ++ [(k, f)])
  rw [addKernel_fresh p k f hnd hdisj hkf]
  have hscan : (scanOuter (p ++ [(k, f)])).1 = [] := by
    rw [scanOuter_of_no_merge (p ++ [(k, f)]) hnm]
  unfold simplify
  simp only [simplifyFuel]
  simp [hscan]

/-- Helper: re-adding the remaining pieces of a simplified well-formed map
into a prefix of itself reproduces the map. -/
theorem merge_nil_fold (p : Pieces) (hInv : Inv p)
    (hnm : ∀ e₁ ∈ p, ∀ e₂ ∈ p, mergeCond e₁.1 e₁.2 e₂.1 e₂.2 = false) :
    ∀ (r l : Pieces), p = l ++ r →
      List.foldl
        (fun acc e => acc.bind
          (fun q => add q ((e.1.inf : ℚ) / 100000) ((e.1.sup : ℚ) / 100000) e.2))
        (some l) r = some p := by
  obtain ⟨hg, hpd, hnd⟩ := hInv
  intro r
  induction r with
  | nil => intro l h; rw [List.foldl_nil, h, List.append_nil]
  | cons e r ih =>
    intro l h
    have he : e ∈ p := by
      rw [h]; exact List.mem_append.mpr (Or.inr (List.mem_cons_self e r))
    have hgk : goodKey e.1 := hg e he
    have hmapnd : ((l.map Prod.fst) ++ (e.1 :: r.map Prod.fst)).Nodup := by
      have hthis := hnd
      rw [h, List.map_append, List.map_cons] at hthis
      exact hthis
    have hlnd : (l.map Prod.fst).Nodup := hmapnd.of_append_left
    have hfresh : e.1 ∉ l.map Prod.fst := by
      have hdisj := (List.nodup_append.mp hmapnd).2.2
      intro hmem
      exact hdisj hmem (List.mem_cons_self e.1 (r.map Prod.fst))
    have hdisjint : ∀ x ∈ l, Quantitative.intersection x.1 e.1 = none := by
      intro x hx
      have hxp : x ∈ p := by rw [h]; exact List.mem_append.mpr (Or.inl hx)
      have hxne : x.1 ≠ e.1 := by
        intro hcontra
        exact hfresh (hcontra ▸ List.mem_map_of_mem Prod.fst hx)
      exact inter_none_of_openDisj x.1 e.1 (hg x hxp).1 hgk.1 (hpd x hxp e he hxne)
    have hnm2 : ∀ e₁ ∈ l ++ [e], ∀ e₂ ∈ l ++ [e],
        mergeCond e₁.1 e₁.2 e₂.1 e₂.2 = false := by
      have hsub : ∀ x ∈ l ++ [e], x ∈ p := by
        intro x hx
        rcases List.mem_append.mp hx with hx | hx
        · rw [h]; exact List.mem_append.mpr (Or.inl hx)
        · simp only [List.mem_singleton] at hx
          rw [hx]; exact he
      intro e₁ h₁ e₂ h₂
      exact hnm e₁ (hsub e₁ h₁) e₂ (hsub e₂ h₂)
    have hadd : add l ((e.1.inf : ℚ) / 100000) ((e.1.sup : ℚ) / 100000) e.2
        = some (l ++ [e]) :=
      add_fresh l _ _ e.2 e.1 (key_roundtrip e.1 hgk) hlnd hdisjint hfresh hnm2
    simp only [List.foldl_cons, Option.some_bind]
    rw [hadd]
    exact ih (l ++ [e]) (by rw [h, List.append_assoc, List.singleton_append])

/-! ## C7 (amended): merge with the empty function is commutative -/

/-- C7 as amended: full commutativity of `merge` fails, but `merge`
commutes with the empty function on every state reachable from `new()` by
successful `add` calls with non-degenerate quantized ranges: merging such
a map with `new()` in either order succeeds and returns the map itself.
(Degenerate adds must be excluded: they can break interior disjointness,
after which re-inserting the pieces splits them differently.) -/
theorem merge_empty_commutative (p : Pieces) (h : ReachableND p) :
    merge p [] = some p ∧ merge [] p = some p := by
  have hInv : Inv p := reachableND_inv p h
  have hnm : ∀ e₁ ∈ p, ∀ e₂ ∈ p, mergeCond e₁.1 e₁.2 e₂.1 e₂.2 = false := by
    cases h with
    | base => intro e₁ h₁; cases h₁
    | step hr hk ha =>
      rename_i p' inf sup f
      unfold add at ha
      cases hkey : key inf sup with
      | none => rw [hkey] at ha; cases ha
      | some dom =>
        rw [hkey] at ha
        exact scanOuter_empty _ (simplifyFuel_scan_empty _ _ _ ha)
  constructor
  · rfl
  · unfold merge
    exact merge_nil_fold p hInv hnm p [] rfl

/-- Witness for C7 (amended): the one-piece map `[0, 1] ↦ y = 1`, reached
by a single non-degenerate `add`, merges with the empty function in either
order to itself. -/
theorem merge_empty_commutative_witness :
    merge [((⟨0, 100000⟩ : QI), (⟨0, 1⟩ : LinearFunction))] [] =
        some [(⟨0, 100000⟩, ⟨0, 1⟩)] ∧
      merge [] [((⟨0, 100000⟩ : QI), (⟨0, 1⟩ : LinearFunction))] =
        some [(⟨0, 100000⟩, ⟨0, 1⟩)] :=
  merge_empty_commutative [(⟨0, 100000⟩, ⟨0, 1⟩)]
    (@ReachableND.step [] [(⟨0, 100000⟩, ⟨0, 1⟩)] 0 1 (LinearFunction.new 0 1)
      ReachableND.base (by decide) (by decide))

/-! ## C8 (amended): exact agreement of the trapezoid conversion -/

/-- C8 as amended: for a trapezoid with proper ramps and plateau
`a < b < c < d` whose corner points, ramp slopes and ramp intercepts are
exact 5-decimal values inside the quantization range, and whose three
segment functions are not identified by the 3-decimal comparison of
`simplify`, the conversion succeeds, evaluating a stored piece's linear
function anywhere on its interval agrees exactly with `membership_value`,
and every point outside all stored intervals has membership `0`. -/
theorem from_trapezoidal_agrees_amended (t : Trapezoidal)
    (hab : t.a < t.b) (hbc : t.b < t.c) (hcd : t.c < t.d)
    (hea : exact5 t.a) (heb : exact5 t.b) (hec : exact5 t.c) (hed : exact5 t.d)
    (hs1 : exact5 (1 / (t.b - t.a))) (hi1 : exact5 (-1 * (1 / (t.b - t.a)) * t.a))
    (hs2 : exact5 (1 / (t.c - t.d))) (hi2 : exact5 (-1 * (1 / (t.c - t.d)) * t.d))
    (hlo : -(2 ^ 31) ≤ rround (t.a * 100000))
    (hhi : rround (t.d * 100000) ≤ 2 ^ 31 - 1)
    (hap1 : approxPair (LinearFunction.new (1 / (t.c - t.d)) (-1 * (1 / (t.c - t.d)) * t.d))
        (LinearFunction.new 0 1) = false)
    (hap2 : approxPair (LinearFunction.new 0 1)
        (LinearFunction.new (1 / (t.b - t.a)) (-1 * (1 / (t.b - t.a)) * t.a)) = false) :
    ∃ ps : Pieces, fromTrapezoidal t = some ps ∧
      (∀ e ∈ ps, ∀ x : ℚ, ((e.1.inf : ℚ)) / 100000 ≤ x → x ≤ ((e.1.sup : ℚ)) / 100000 →
        LinearFunction.eval e.2 x = t.membership_value x) ∧
      (∀ x : ℚ, (∀ e ∈ ps, x < ((e.1.inf : ℚ)) / 100000 ∨ ((e.1.sup : ℚ)) / 100000 < x) →
        t.membership_value x = 0) := by
  have hba : t.b - t.a ≠ 0 := sub_ne_zero_of_ne hab.ne'
  have hcdne : t.c - t.d ≠ 0 := sub_ne_zero_of_ne hcd.ne
  have hs1q : round5 (1 / (t.b - t.a)) = 1 / (t.b - t.a) := hs1
  have hi1q : round5 (-1 * (1 / (t.b - t.a)) * t.a) = -1 * (1 / (t.b - t.a)) * t.a := hi1
  have hs2q : round5 (1 / (t.c - t.d)) = 1 / (t.c - t.d) := hs2
  have hi2q : round5 (-1 * (1 / (t.c - t.d)) * t.d) = -1 * (1 / (t.c - t.d)) * t.d := hi2
  have hq : ∀ z : ℚ, exact5 z → ((rround (z * 100000) : ℤ) : ℚ) = z * 100000 := by
    intro z hz
    unfold exact5 round5 at hz
    field_simp at hz
    linarith
  have hqa := hq t.a hea
  have hqb := hq t.b heb
  have hqc := hq t.c hec
  have hqd := hq t.d hed
  have h5ab : rround (t.a * 100000) ≤ rround (t.b * 100000) := by
    have h : ((rround (t.a * 100000) : ℤ) : ℚ) ≤ ((rround (t.b * 100000) : ℤ) : ℚ) := by
      rw [hqa, hqb]; linarith
    exact_mod_cast h
  have h5bc : rround (t.b * 100000) ≤ rround (t.c * 100000) := by
    have h : ((rround (t.b * 100000) : ℤ) : ℚ) ≤ ((rround (t.c * 100000) : ℤ) : ℚ) := by
      rw [hqb, hqc]; linarith
    exact_mod_cast h
  have h5cd : rround (t.c * 100000) ≤ rround (t.d * 100000) := by
    have h : ((rround (t.c * 100000) : ℤ) : ℚ) ≤ ((rround (t.d * 100000) : ℤ) : ℚ) := by
      rw [hqc, hqd]; linarith
    exact_mod_cast h
  obtain ⟨k₁, hk1, hg1, hk1a, hk1b⟩ := key_exact t.a t.b hea heb hab hlo (by omega)
  obtain ⟨k₂, hk2, hg2, hk2a, hk2b⟩ := key_exact t.c t.d hec hed hcd (by omega) hhi
  obtain ⟨k₃, hk3, hg3, hk3a, hk3b⟩ := key_exact t.b t.c heb hec hbc (by omega) (by omega)
  have o1 : k₁.inf < k₁.sup := hg1.1
  have o2 : k₂.inf < k₂.sup := hg2.1
  have o3 : k₃.inf < k₃.sup := hg3.1
  have e13 : k₁.sup = k₃.inf := by
    have h : ((k₁.sup : ℚ)) = ((k₃.inf : ℚ)) := by rw [hk1b, hk3a]
    exact_mod_cast h
  have e32 : k₃.sup = k₂.inf := by
    have h : ((k₃.sup : ℚ)) = ((k₂.inf : ℚ)) := by rw [hk3b, hk2a]
    exact_mod_cast h
  have da : ((k₁.inf : ℚ)) / 100000 = t.a := by
    rw [hk1a]; exact mul_div_cancel_right₀ _ (by norm_num)
  have db1 : ((k₁.sup : ℚ)) / 100000 = t.b := by
    rw [hk1b]; exact mul_div_cancel_right₀ _ (by norm_num)
  have db3 : ((k₃.inf : ℚ)) / 100000 = t.b := by
    rw [hk3a]; exact mul_div_cancel_right₀ _ (by norm_num)
  have dc3 : ((k₃.sup : ℚ)) / 100000 = t.c := by
    rw [hk3b]; exact mul_div_cancel_right₀ _ (by norm_num)
  have dc2 : ((k₂.inf : ℚ)) / 100000 = t.c := by
    rw [hk2a]; exact mul_div_cancel_right₀ _ (by norm_num)
  have dd : ((k₂.sup : ℚ)) / 100000 = t.d := by
    rw [hk2b]; exact mul_div_cancel_right₀ _ (by norm_num)
  have hadd1 : add [] t.a t.b
      (LinearFunction.new (1 / (t.b - t.a)) (-1 * (1 / (t.b - t.a)) * t.a)) =
      some [(k₁, LinearFunction.new (1 / (t.b - t.a)) (-1 * (1 / (t.b - t.a)) * t.a))] := by
    apply add_fresh [] t.a t.b _ k₁ hk1
    · simp
    · intro e he; cases he
    · simp
    · intro e₁ h₁ e₂ h₂
      simp only [List.nil_append, List.mem_singleton] at h₁ h₂
      rw [h₁, h₂]
      dsimp only
      exact mergeCond_not_adj _ _ _ _ (by omega) (by omega)
  have hadd2 : add [(k₁, LinearFunction.new (1 / (t.b - t.a)) (-1 * (1 / (t.b - t.a)) * t.a))]
      t.c t.d (LinearFunction.new (1 / (t.c - t.d)) (-1 * (1 / (t.c - t.d)) * t.d)) =
      some [(k₁, LinearFunction.new (1 / (t.b - t.a)) (-1 * (1 / (t.b - t.a)) * t.a)),
        (k₂, LinearFunction.new (1 / (t.c - t.d)) (-1 * (1 / (t.c - t.d)) * t.d))] := by
    apply add_fresh _ t.c t.d _ k₂ hk2
    · simp
    · intro e he
      simp only [List.mem_singleton] at he
      rw [he]
      dsimp only
      exact inter_none_of_openDisj k₁ k₂ o1 o2 (Or.inl (by omega))
    · simp only [List.map_cons, List.map_nil, List.mem_singleton]
      intro hcontra
      have hcc := congrArg Quantitative.inf hcontra
      omega
    · intro e₁ h₁ e₂ h₂
      simp only [List.cons_append, List.nil_append, List.mem_cons, List.not_mem_nil,
        or_false] at h₁ h₂
      rcases h₁ with rfl | rfl <;> rcases h₂ with rfl | rfl <;> dsimp only <;>
        exact mergeCond_not_adj _ _ _ _ (by omega) (by omega)
  have hadd3 : add [(k₁, LinearFunction.new (1 / (t.b - t.a)) (-1 * (1 / (t.b - t.a)) * t.a)),
      (k₂, LinearFunction.new (1 / (t.c - t.d)) (-1 * (1 / (t.c - t.d)) * t.d))]
      t.b t.c (LinearFunction.new 0 1) =
      some [(k₁, LinearFunction.new (1 / (t.b - t.a)) (-1 * (1 / (t.b - t.a)) * t.a)),
        (k₂, LinearFunction.new (1 / (t.c - t.d)) (-1 * (1 / (t.c - t.d)) * t.d)),
        (k₃, LinearFunction.new 0 1)] := by
    apply add_fresh _ t.b t.c _ k₃ hk3
    · simp only [List.map_cons, List.map_nil]
      refine List.nodup_cons.mpr ⟨?_, List.nodup_singleton _⟩
      simp only [List.mem_singleton]
      intro hcontra
      have hcc := congrArg Quantitative.inf hcontra
      omega
    · intro e he
      simp only [List.mem_cons, List.not_mem_nil, or_false] at he
      rcases he with rfl | rfl <;> dsimp only
      · exact inter_none_of_openDisj k₁ k₃ o1 o3 (Or.inl (by omega))
      · exact inter_none_of_openDisj k₂ k₃ o2 o3 (Or.inr (by omega))
    · simp only [List.map_cons, List.map_nil, List.mem_cons, List.not_mem_nil, or_false]
      intro hcontra
      rcases hcontra with hcontra | hcontra <;>
        (have hcc := congrArg Quantitative.inf hcontra; omega)
    · intro e₁ h₁ e₂ h₂
      simp only [List.cons_append, List.nil_append, List.mem_cons, List.not_mem_nil,
        or_false] at h₁ h₂
      rcases h₁ with rfl | rfl | rfl <;> rcases h₂ with rfl | rfl | rfl <;> dsimp only
      · exact mergeCond_not_adj _ _ _ _ (by omega) (by omega)
      · exact mergeCond_not_adj _ _ _ _ (by omega) (by omega)
      · exact mergeCond_not_adj _ _ _ _ (by omega) (by omega)
      · exact mergeCond_not_adj _ _ _ _ (by omega) (by omega)
      · exact mergeCond_not_adj _ _ _ _ (by omega) (by omega)
      · exact mergeCond_not_approx _ _ _ _ hap1
      · exact mergeCond_not_approx _ _ _ _ hap2
      · exact mergeCond_not_adj _ _ _ _ (by omega) (by omega)
      · exact mergeCond_not_adj _ _ _ _ (by omega) (by omega)
  have hrun : fromTrapezoidal t =
      some [(k₁, LinearFunction.new (1 / (t.b - t.a)) (-1 * (1 / (t.b - t.a)) * t.a)),
        (k₂, LinearFunction.new (1 / (t.c - t.d)) (-1 * (1 / (t.c - t.d)) * t.d)),
        (k₃, LinearFunction.new 0 1)] := by
    have hne1 : t.a ≠ t.b := ne_of_lt hab
    have hne2 : t.d ≠ t.c := Ne.symm (ne_of_lt hcd)
    have hne3 : t.b ≠ t.c := ne_of_lt hbc
    have hnlt : ¬ t.d < t.c := not_lt.mpr (le_of_lt hcd)
    simp only [fromTrapezoidal, Option.some_bind]
    rw [if_pos hne3, if_pos hne1, if_pos hab, if_pos hab, hadd1]
    simp only [Option.some_bind]
    rw [if_pos hne2, if_neg hnlt, if_neg hnlt, hadd2]
    simp only [Option.some_bind]
    rw [hadd3]
  refine ⟨_, hrun, ?_, ?_⟩
  · intro e he x hx1 hx2
    have hev1 : ∀ y : ℚ, LinearFunction.eval
        (LinearFunction.new (1 / (t.b - t.a)) (-1 * (1 / (t.b - t.a)) * t.a)) y
        = (1 / (t.b - t.a)) * y + -1 * (1 / (t.b - t.a)) * t.a := by
      intro y
      simp only [LinearFunction.eval, LinearFunction.new]
      rw [hs1q, hi1q]
    have hev2 : ∀ y : ℚ, LinearFunction.eval
        (LinearFunction.new (1 / (t.c - t.d)) (-1 * (1 / (t.c - t.d)) * t.d)) y
        = (1 / (t.c - t.d)) * y + -1 * (1 / (t.c - t.d)) * t.d := by
      intro y
      simp only [LinearFunction.eval, LinearFunction.new]
      rw [hs2q, hi2q]
    have hev3 : ∀ y : ℚ, LinearFunction.eval (LinearFunction.new 0 1) y = 1 := by
      intro y
      simp only [LinearFunction.eval, LinearFunction.new]
      rw [show round5 (0 : ℚ) = 0 by decide, show round5 (1 : ℚ) = 1 by decide]
      ring
    simp only [List.mem_cons, List.not_mem_nil, or_false] at he
    rcases he with rfl | rfl | rfl
    · dsimp only at hx1 hx2 ⊢
      rw [da] at hx1
      rw [db1] at hx2
      rw [hev1]
      unfold Trapezoidal.membership_value
      split_ifs with h1 h2 h3
      · rcases h1 with h1 | h1
        · have hxa : x = t.a := le_antisymm h1 hx1
          rw [hxa]; ring
        · exfalso; linarith
      · have hxb : x = t.b := le_antisymm hx2 h2.1
        rw [hxb]
        field_simp
        ring
      · field_simp
        ring
      · exfalso
        push_neg at h2
        have hxb : t.b ≤ x := not_lt.mp h3
        have hcx := h2 hxb
        linarith
    · dsimp only at hx1 hx2 ⊢
      rw [dc2] at hx1
      rw [dd] at hx2
      rw [hev2]
      unfold Trapezoidal.membership_value
      split_ifs with h1 h2 h3
      · rcases h1 with h1 | h1
        · exfalso; linarith
        · have hxd : x = t.d := le_antisymm hx2 h1
          rw [hxd]; ring
      · have hxc : x = t.c := le_antisymm h2.2 hx1
        rw [hxc]
        field_simp
        ring
      · exfalso; linarith
      · field_simp
        ring
    · dsimp only at hx1 hx2 ⊢
      rw [db3] at hx1
      rw [dc3] at hx2
      rw [hev3]
      unfold Trapezoidal.membership_value
      split_ifs with h1 h2 h3
      · rcases h1 with h1 | h1 <;> exfalso <;> linarith
      · rfl
      · exfalso; linarith
      · exact absurd ⟨hx1, hx2⟩ h2
  · intro x hx
    have h1 := hx (k₁, LinearFunction.new (1 / (t.b - t.a)) (-1 * (1 / (t.b - t.a)) * t.a))
      (List.mem_cons_self _ _)
    have h2 := hx (k₂, LinearFunction.new (1 / (t.c - t.d)) (-1 * (1 / (t.c - t.d)) * t.d))
      (by simp)
    have h3 := hx (k₃, LinearFunction.new 0 1) (by simp)
    dsimp only at h1 h2 h3
    rw [da, db1] at h1
    rw [dc2, dd] at h2
    rw [db3, dc3] at h3
    have hcase : x ≤ t.a ∨ x ≥ t.d := by
      rcases h1 with h | h
      · exact Or.inl (le_of_lt h)
      · rcases h3 with h' | h'
        · exact absurd h' (not_lt.mpr (le_of_lt h))
        · rcases h2 with h'' | h''
          · exact absurd h'' (not_lt.mpr (le_of_lt h'))
          · exact Or.inr (le_of_lt h'')
    unfold Trapezoidal.membership_value
    rw [if_pos hcase]

/-- Witness for C8 (amended): the trapezoid `(0, 1/4, 1/2, 3/4)` has exact
ramps `4·x` and `-4·x + 3`, and its conversion agrees exactly with
`membership_value` on the stored intervals. -/
theorem from_trapezoidal_agrees_amended_witness :
    ∃ ps : Pieces, fromTrapezoidal ⟨0, 1/4, 1/2, 3/4⟩ = some ps ∧
      (∀ e ∈ ps, ∀ x : ℚ, ((e.1.inf : ℚ)) / 100000 ≤ x → x ≤ ((e.1.sup : ℚ)) / 100000 →
        LinearFunction.eval e.2 x = Trapezoidal.membership_value ⟨0, 1/4, 1/2, 3/4⟩ x) ∧
      (∀ x : ℚ, (∀ e ∈ ps, x < ((e.1.inf : ℚ)) / 100000 ∨ ((e.1.sup : ℚ)) / 100000 < x) →
        Trapezoidal.membership_value ⟨0, 1/4, 1/2, 3/4⟩ x = 0) :=
  from_trapezoidal_agrees_amended ⟨0, 1/4, 1/2, 3/4⟩
    (by norm_num) (by norm_num) (by norm_num)
    (by unfold exact5; decide) (by unfold exact5; decide)
    (by unfold exact5; decide) (by unfold exact5; decide)
    (by unfold exact5; decide) (by unfold exact5; decide)
    (by unfold exact5; decide) (by unfold exact5; decide)
    (by decide) (by decide) (by decide) (by decide)

end Proofs

end Assessment
